import Mathlib

/-!
The package `instyle`: style tags rendered to ANSI escape sequences

A shallow embedding of `style_set.go` (the tag parser and renderer `Apply`,
its helpers `parseOpening` and `checkSequence`, the registry operations
`Register` and `NewStyler`) together with theorems about it.

Conventions of the embedding

* a Go `rune` (int32) and a Go `int` are Lean `Int`s; no arithmetic in the
  program can leave the machine range (every index is bounded by a slice
  length plus a small constant);
* a Go `string` is its list of bytes (`List Nat`, each below 256), and
  `[]rune(s)` / `range s` follow the Go language definition of UTF-8 decoding;
* a slice `[]rune` is a `List Int`; a slice that may be `nil` (the slots of
  `appliedStyleStack`, the first result of `parseOpening`) is an
  `Option (List Int)` with `none` for `nil`;
* the map `named` is an association list, read by its first entry for a key and
  written by overwriting that entry (`Register` never creates a second one);
* a run-time panic (index out of range) is the outcome `Outcome.panic`;
* loops are unrolled by structural recursion on a step budget; exhausting
  the budget is the separate outcome `Outcome.outOfFuel`.
-/

namespace Instyle

/-- Result of running a piece of Go code: a value, or a run-time panic, or
the embedding's step budget ran out. -/
inductive Outcome (α : Type) where
  | ok (a : α)
  | panic
  | outOfFuel
  deriving DecidableEq, Repr

/-- The constant `keySizeMax`. -/
def keySizeMax : Nat := 16

/-- The constant `styleDepthMax`. -/
def styleDepthMax : Nat := 5

/-- The runes of `"[~"`. -/
def openingBegin : List Int := [91, 126]

/-- The runes of `"]"`. -/
def openingClose : List Int := [93]

/-- The runes of `"[/]"`. -/
def closing : List Int := [91, 47, 93]

/-- The reset sequence `ESC [ 0 m`. -/
def reset : List Int := [27, 91, 48, 109]

/-! ## Go strings -/

/-- The bytes of a Go string literal: the UTF-8 encoding of its characters. -/
def goString (s : String) : List Nat :=
  s.data.flatMap (fun c => (String.utf8EncodeChar c).map UInt8.toNat)

/-- Go's `utf8.DecodeRuneInString` on a non-empty byte list: the rune that
starts the list and its width; an invalid or truncated encoding is
`U+FFFD` of width 1. -/
def decodeRune : List Nat → Int × Nat
  | [] => (65533, 0)
  | s0 :: rest =>
    if s0 < 128 then (Int.ofNat s0, 1)
    else if s0 < 194 then (65533, 1)
    else if s0 < 224 then
      match rest with
      | s1 :: _ =>
        if 128 ≤ s1 ∧ s1 ≤ 191 then (Int.ofNat ((s0 % 32) * 64 + s1 % 64), 2)
        else (65533, 1)
      | [] => (65533, 1)
    else if s0 < 240 then
      let lo := if s0 = 224 then 160 else 128
      let hi := if s0 = 237 then 159 else 191
      match rest with
      | s1 :: s2 :: _ =>
        if lo ≤ s1 ∧ s1 ≤ hi ∧ 128 ≤ s2 ∧ s2 ≤ 191 then
          (Int.ofNat ((s0 % 16) * 4096 + (s1 % 64) * 64 + s2 % 64), 3)
        else (65533, 1)
      | _ => (65533, 1)
    else if s0 < 245 then
      let lo := if s0 = 240 then 144 else 128
      let hi := if s0 = 244 then 143 else 191
      match rest with
      | s1 :: s2 :: s3 :: _ =>
        if lo ≤ s1 ∧ s1 ≤ hi ∧ 128 ≤ s2 ∧ s2 ≤ 191 ∧ 128 ≤ s3 ∧ s3 ≤ 191 then
          (Int.ofNat ((s0 % 8) * 262144 + (s1 % 64) * 4096 + (s2 % 64) * 64 + s3 % 64), 4)
        else (65533, 1)
      | _ => (65533, 1)
    else (65533, 1)

/-- Go's `for k, v := range s` from byte offset `off`, with `skip` bytes of
the current rune still to pass over: the pairs (byte offset, rune). -/
def rangeFrom : List Nat → Nat → Nat → List (Nat × Int)
  | [], _, _ => []
  | _ :: bs, off, skip + 1 => rangeFrom bs (off + 1) skip
  | b :: bs, off, 0 =>
    (off, (decodeRune (b :: bs)).1) :: rangeFrom bs (off + 1) ((decodeRune (b :: bs)).2 - 1)

/-- Go's `for k, v := range s`: the pairs (byte offset, rune) of a string. -/
def rangeString (s : List Nat) : List (Nat × Int) := rangeFrom s 0 0

/-- Go's conversion `[]rune(s)`. -/
def toRunes (s : List Nat) : List Int := (rangeString s).map (fun kv => kv.2)

/-- The rune slice `[]rune(s)` of a string literal. -/
def runesOf (s : String) : List Int := toRunes (goString s)

/-! ## The registry `styleSet.named` -/

/-- The map `map[[keySizeMax]rune][]rune`: keys are 16-slot rune arrays. -/
abbrev Registry := List (List Int × List Int)

/-- The map read `found, ok := named[key]`. -/
def Registry.get (named : Registry) (key : List Int) : Option (List Int) :=
  match named with
  | [] => none
  | (k, v) :: rest => if k = key then some v else Registry.get rest key

/-- The map write `named[key] = value`: insert or overwrite. -/
def Registry.put (named : Registry) (key : List Int) (value : List Int) : Registry :=
  match named with
  | [] => [(key, value)]
  | (k, v) :: rest =>
    if k = key then (k, value) :: rest else (k, v) :: Registry.put rest key value

/-- The zero value `[keySizeMax]rune{}`. -/
def emptyKey : List Int := List.replicate keySizeMax 0

/-- The method `styleSet.Register`: the name is cut to its first
`min(keySizeMax, len(name))` bytes, and each rune of the cut string is stored
in the key at the byte offset where it starts. -/
def Register (named : Registry) (name : List Nat) (value : List Nat) : Registry :=
  let parsed := (rangeString (name.take (min keySizeMax name.length))).foldl
    (fun parsed kv => parsed.set kv.1 kv.2) emptyKey
  Registry.put named parsed (toRunes value)

/-- The registrations of `NewStyler`, in source order. -/
def builtinStyles : List (String × String) :=
  [("plain", "22"),
   ("reset", "0"), ("bold", "1"), ("faint", "2"), ("italic", "3"),
   ("underline", "4"), ("blink", "5"), ("strike", "6"),
   ("black", "30"), ("red", "31"), ("green", "32"), ("yellow", "33"),
   ("blue", "34"), ("magenta", "35"), ("cyan", "36"), ("white", "37"),
   ("default", "39"),
   ("bg-black", "40"), ("bg-red", "41"), ("bg-green", "42"), ("bg-yellow", "43"),
   ("bg-blue", "44"), ("bg-magenta", "45"), ("bg-cyan", "46"), ("bg-white", "47"),
   ("bg-default", "49"),
   ("light-black", "90"), ("light-red", "91"), ("light-green", "92"),
   ("light-yellow", "93"), ("light-blue", "94"), ("light-magenta", "95"),
   ("light-cyan", "96"), ("light-white", "97"),
   ("bg-light-black", "100"), ("bg-light-red", "101"), ("bg-light-green", "102"),
   ("bg-light-yellow", "103"), ("bg-light-blue", "104"), ("bg-light-magenta", "105"),
   ("bg-light-cyan", "106"), ("bg-light-white", "107")]

/-- The constructor `NewStyler`: an empty map, then the built-in
registrations one after the other. -/
def NewStyler : Registry :=
  builtinStyles.foldl (fun named nv => Register named (goString nv.1) (goString nv.2)) []

/-! ## Slices and arrays -/

/-- The slice read `runes[j]` for a Go `int` index: `none` is the
index-out-of-range panic. -/
def runeAt (runes : List Int) (j : Int) : Option Int :=
  if j < 0 then none else runes[j.toNat]?

/-! ## `checkSequence` -/

/-- The comparison loop of `checkSequence`, `for i := 0; i < lenSequence; i++`,
entered at counter `i` with the not yet compared part of `sequence`:
`some true` when the loop runs to its end, `some false` at the first
mismatch, `none` when `runes[idx+i]` is out of range. -/
def checkSequenceLoop (runes : List Int) (idx : Int) : List Int → Int → Option Bool
  | [], _ => some true
  | c :: rest, i =>
    match runeAt runes (idx + i) with
    | none => none
    | some r => if c ≠ r then some false else checkSequenceLoop runes idx rest (i + 1)

/-- The function `checkSequence(sequence, runes, idx)`. -/
def checkSequence (sequence : List Int) (runes : List Int) (idx : Int) : Outcome (Int × Bool) :=
  let lenRunes : Int := runes.length
  let lenSequence : Int := sequence.length
  if lenRunes < lenSequence ∨ lenRunes - idx < lenSequence then .ok (idx, false)
  else
    match checkSequenceLoop runes idx sequence 0 with
    | none => .panic
    | some false => .ok (idx, false)
    | some true => .ok (idx + lenSequence - 1, true)

/-! ## `parseOpening` -/

/-- The array write `key[count] = r`: `none` is the index-out-of-range panic. -/
def keySet (key : List Int) (count : Int) (r : Int) : Option (List Int) :=
  if 0 ≤ count ∧ count < key.length then some (key.set count.toNat r) else none

/-- The slice expression `key[:count]`: `none` is the slice-bounds panic. -/
def keySlice (key : List Int) (count : Int) : Option (List Int) :=
  if 0 ≤ count ∧ count ≤ key.length then some (key.take count.toNat) else none

/-- The scan loop of `parseOpening`,
`for i, count := after+1, 0; i < len(runes); i++`, entered with the loop
variables `i`, `count` and the locals `sequence`, `first`, `numeric`, `key`;
`after` is the value the function returns as its index when the loop ends
without a `break`. -/
def parseOpeningLoop (named : Registry) (runes : List Int) (idx : Int) (after : Int) :
    Nat → Int → Int → List Int → Bool → Bool → List Int →
    Outcome (Option (List Int) × Int × Bool)
  | 0, _, _, _, _, _, _ => .outOfFuel
  | fuel + 1, i, count, sequence, first, numeric, key =>
    if i < (runes.length : Int) then
      match runeAt runes i with
      | none => .panic
      | some r =>
        let isClose : Bool := r == 93
        if isClose || r == 43 then
          if count = 0 ∨ count ≥ (keySizeMax : Int) then .ok (none, idx, false)
          else
            let sequence1 := if !first then sequence ++ [59] else sequence
            let resolved : Outcome (Option (List Int)) :=
              match Registry.get named key with
              | some found => .ok (some (sequence1 ++ found))
              | none =>
                if numeric then
                  match keySlice key count with
                  | some digits => .ok (some (sequence1 ++ digits))
                  | none => .panic
                else .ok none
            match resolved with
            | .panic => .panic
            | .outOfFuel => .outOfFuel
            | .ok none => .ok (none, idx, false)
            | .ok (some sequence2) =>
              if isClose then
                match checkSequence openingClose runes i with
                | .panic => .panic
                | .outOfFuel => .outOfFuel
                | .ok (after1, true) => .ok (some (sequence2 ++ [109]), after1, true)
                | .ok (_, false) => .ok (none, idx, false)
              else
                parseOpeningLoop named runes idx after fuel (i + 1) 0 sequence2 false true emptyKey
        else
          let numeric1 := if r < 48 ∨ r > 57 then false else numeric
          match keySet key count r with
          | none => .panic
          | some key1 =>
            parseOpeningLoop named runes idx after fuel (i + 1) (count + 1) sequence first
              numeric1 key1
    else .ok (some (sequence ++ [109]), after, true)

/-- The method `styleSet.parseOpening(runes, idx)`: the computed sequence
(`none` for `nil`), the returned index and the flag. -/
def parseOpening (named : Registry) (runes : List Int) (idx : Int) :
    Outcome (Option (List Int) × Int × Bool) :=
  match checkSequence openingBegin runes idx with
  | .panic => .panic
  | .outOfFuel => .outOfFuel
  | .ok (_, false) => .ok (none, idx, false)
  | .ok (after, true) =>
    parseOpeningLoop named runes idx after (runes.length + 1) (after + 1) 0 [27, 91] true true
      emptyKey

/-! ## `Apply` -/

/-- The loop variables and locals of `styleSet.Apply`: the cursor `i`, the
depth `nest`, the array `appliedStyleStack` and the slice `output`. -/
structure ApplyState where
  i : Int
  nest : Int
  appliedStyleStack : List (Option (List Int))
  output : List Int
  deriving DecidableEq, Repr

/-- The array read `appliedStyleStack[j]`: the outer `none` is the
index-out-of-range panic. -/
def slotGet (stack : List (Option (List Int))) (j : Int) : Option (Option (List Int)) :=
  if j < 0 then none else stack[j.toNat]?

/-- The array write `appliedStyleStack[j] = v`: `none` is the
index-out-of-range panic. -/
def slotSet (stack : List (Option (List Int))) (j : Int) (v : Option (List Int)) :
    Option (List (Option (List Int))) :=
  if 0 ≤ j ∧ j < stack.length then some (stack.set j.toNat v) else none

/-- The slice `x` in `append(output, x...)`: a `nil` slice adds nothing. -/
def sliceRunes (x : Option (List Int)) : List Int := x.getD []

/-- The re-emission loop of the closing branch,
`for i := 0; i < len(appliedStyleStack) && i < nest; i++`, entered at counter
`i` with the slots from index `i` on. -/
def restoreLoop (nest : Int) : List (Option (List Int)) → Int → List Int → List Int
  | [], _, output => output
  | slot :: rest, i, output =>
    if i < nest then restoreLoop nest rest (i + 1) (output ++ sliceRunes slot) else output

/-- The tail of the loop body of `Apply` from `if r == closing[0] && nest > 0`
to the final `output = append(output, r)`; the result is the state at the end
of the iteration, before the loop's `i++`. -/
def applyClosing (runes : List Int) (r : Int) (st : ApplyState) : Outcome ApplyState :=
  if r = 91 ∧ st.nest > 0 then
    match checkSequence closing runes st.i with
    | .panic => .panic
    | .outOfFuel => .outOfFuel
    | .ok (i1, false) => .ok { st with i := i1, output := st.output ++ [r] }
    | .ok (i1, true) =>
      let nest1 := st.nest - 1
      if nest1 ≥ 0 then
        let output1 := st.output ++ reset
        match slotSet st.appliedStyleStack nest1 none with
        | none => .panic
        | some stack1 =>
          let cleared : Option (List (Option (List Int))) :=
            if i1 + 1 = (runes.length : Int) then slotSet stack1 0 none else some stack1
          match cleared with
          | none => .panic
          | some stack2 =>
            .ok { i := i1, nest := nest1, appliedStyleStack := stack2,
                  output := restoreLoop nest1 stack2 0 output1 }
      else .ok { st with i := i1, nest := nest1, output := st.output ++ [r] }
  else .ok { st with output := st.output ++ [r] }

/-- One iteration of the loop body of `Apply` at a cursor `i < len(runes)`;
the result is the state at the end of the iteration, before the loop's `i++`. -/
def applyStep (named : Registry) (runes : List Int) (st : ApplyState) : Outcome ApplyState :=
  match runeAt runes st.i with
  | none => .panic
  | some r =>
    if r = 91 ∧ st.nest < (styleDepthMax : Int) then
      match parseOpening named runes st.i with
      | .panic => .panic
      | .outOfFuel => .outOfFuel
      | .ok (sequence, i1, ok) =>
        match slotSet st.appliedStyleStack st.nest sequence with
        | none => .panic
        | some stack1 =>
          if ok then
            let nest1 := st.nest + 1
            if nest1 > 0 then
              match slotGet stack1 (nest1 - 1) with
              | none => .panic
              | some applied =>
                .ok { i := i1, nest := nest1, appliedStyleStack := stack1,
                      output := st.output ++ sliceRunes applied }
            else
              applyClosing runes r { st with i := i1, nest := nest1, appliedStyleStack := stack1 }
          else
            applyClosing runes r { st with i := i1, appliedStyleStack := stack1 }
    else applyClosing runes r st

/-- The scan loop of `Apply`, `for i, nest := 0, 0; i < len(runes); i++`: the
state when the loop ends. -/
def applyLoop (named : Registry) (runes : List Int) : Nat → ApplyState → Outcome ApplyState
  | 0, _ => .outOfFuel
  | fuel + 1, st =>
    if st.i < (runes.length : Int) then
      match applyStep named runes st with
      | .panic => .panic
      | .outOfFuel => .outOfFuel
      | .ok st1 => applyLoop named runes fuel { st1 with i := st1.i + 1 }
    else .ok st

/-- The state of `Apply` when the scan loop is entered. -/
def applyInit : ApplyState :=
  { i := 0, nest := 0, appliedStyleStack := List.replicate styleDepthMax none, output := reset }

/-- The state of `Apply` when its scan loop has ended. -/
def applyScan (named : Registry) (runes : List Int) : Outcome ApplyState :=
  applyLoop named runes (runes.length + 1) applyInit

/-- The method `styleSet.Apply(runes)`. -/
def Apply (named : Registry) (runes : List Int) : Outcome (List Int) :=
  match applyScan named runes with
  | .panic => .panic
  | .outOfFuel => .outOfFuel
  | .ok st =>
    match slotGet st.appliedStyleStack 0 with
    | none => .panic
    | some none => .ok st.output
    | some (some _) => .ok (st.output ++ reset)

/-! ## Vocabulary of the statements -/

/-- The key slot that `parseOpening` holds when it has read the segment
`name` (at most `keySizeMax` runes): the runes of the segment, then zeros. -/
def keyOf (name : List Int) : List Int :=
  name ++ List.replicate (keySizeMax - name.length) 0

/-- The array `appliedStyleStack` when the scopes whose resolved sequences are
`seqs`, in opening order, are open: slot `d` holds the sequence of level
`d + 1`, the slots from the depth on are `nil`. -/
def stackOf (seqs : List (List Int)) : List (Option (List Int)) :=
  seqs.map some ++ List.replicate (styleDepthMax - seqs.length) none

/-- A segment of a tag that the length check accepts: 1 to 15 runes, none of
them the separator `+` or the close marker `]`. -/
def ValidSegment (g : List Int) : Prop :=
  1 ≤ g.length ∧ g.length ≤ 15 ∧ ∀ c ∈ g, c ≠ 43 ∧ c ≠ 93

/-- A run of decimal digits. -/
def AllDigits (g : List Int) : Prop := ∀ c ∈ g, 48 ≤ c ∧ c ≤ 57

/-- The segment `g` resolves to the body `b`: either `g` is a key of the
registry and `b` is its value, or `g` is no key of the registry, is a run of
decimal digits, and `b` is `g` itself. -/
def Resolves (named : Registry) (g b : List Int) : Prop :=
  Registry.get named (keyOf g) = some b
    ∨ (Registry.get named (keyOf g) = none ∧ AllDigits g ∧ b = g)

/-- The runes of an opening tag with the segments `gs`: `[~`, the segments
separated by `+`, and `]`. -/
def openingTag (gs : List (List Int)) : List Int :=
  openingBegin ++ (List.intercalate [43] gs ++ openingClose)

/-- The resolved sequence of a tag whose segments have the bodies `bs`:
`ESC [`, the bodies joined by `;`, and `m`. -/
def resolvedSequence (bs : List (List Int)) : List Int :=
  [27, 91] ++ (List.intercalate [59] bs ++ [109])

instance (g : List Int) : Decidable (ValidSegment g) := by
  unfold ValidSegment; exact inferInstance

instance (g : List Int) : Decidable (AllDigits g) := by
  unfold AllDigits; exact inferInstance

instance (named : Registry) (g b : List Int) : Decidable (Resolves named g b) := by
  unfold Resolves; exact inferInstance

/-- One scope of a flat text: the name of its opening tag, the body the name
is registered with, the literal text inside the scope, and the literal text
that follows its closing tag. -/
structure Scope where
  name : List Int
  body : List Int
  text : List Int
  after : List Int
  deriving DecidableEq, Repr

/-- The runes `[~name]text[/]after` of a scope. -/
def Scope.source (s : Scope) : List Int :=
  openingTag [s.name] ++ (s.text ++ (closing ++ s.after))

/-- What a scope is expected to render to: `ESC [ body m`, the text, the
reset sequence, and the text that follows the scope. -/
def Scope.rendered (s : Scope) : List Int :=
  resolvedSequence [s.body] ++ (s.text ++ (reset ++ s.after))

/-! ## The built-in palette as the specification lists it -/

/-- The colour names, in the order of the specification. -/
def paletteColours : List String :=
  ["black", "red", "green", "yellow", "blue", "magenta", "cyan", "white"]

/-- The eight names `lead ++ colour` with the bodies `first`, `first + 1`, ... -/
def paletteRow (lead : String) (first : Nat) : List (String × String) :=
  List.zipWith (fun c k => (lead ++ c, toString k)) paletteColours (List.range' first 8)

/-- The palette of the specification: `plain=22, reset=0, bold=1, faint=2,
italic=3, underline=4, blink=5, strike=6`; `black..white = 30..37` and
`default=39`; `bg-black..bg-white = 40..47` and `bg-default=49`;
`light-black..light-white = 90..97`; `bg-light-black..bg-light-white = 100..107`. -/
def paletteTable : List (String × String) :=
  [("plain", "22"), ("reset", "0"), ("bold", "1"), ("faint", "2"), ("italic", "3"),
   ("underline", "4"), ("blink", "5"), ("strike", "6")]
    ++ paletteRow "" 30 ++ [("default", "39")]
    ++ paletteRow "bg-" 40 ++ [("bg-default", "49")]
    ++ paletteRow "light-" 90
    ++ paletteRow "bg-light-" 100

/-! ## The package-level function of `apply.go` -/

/-- Go's conversion of one rune to a string: its UTF-8 encoding, and the
encoding of `U+FFFD` for a value that is no Unicode scalar value. -/
def encodeRune (r : Int) : List Nat :=
  if r < 0 ∨ r > 1114111 ∨ (55296 ≤ r ∧ r ≤ 57343) then [239, 191, 189]
  else if r < 128 then [r.toNat]
  else if r < 2048 then [192 + r.toNat / 64, 128 + r.toNat % 64]
  else if r < 65536 then
    [224 + r.toNat / 4096, 128 + (r.toNat / 64) % 64, 128 + r.toNat % 64]
  else
    [240 + r.toNat / 262144, 128 + (r.toNat / 4096) % 64, 128 + (r.toNat / 64) % 64,
     128 + r.toNat % 64]

/-- Go's conversion `string(runes)`. -/
def toGoString (runes : List Int) : List Nat := runes.flatMap encodeRune

/-- The package-level function `Apply(format, args...)`:
`fmt.Sprintf(string(NewStyler().Apply([]rune(format))), args...)`. The library
function `fmt.Sprintf` is the parameter `sprintf`, the argument pack `args` is
of any type. -/
def PackageApply {α : Type} (sprintf : List Nat → α → List Nat) (format : List Nat) (args : α) :
    Outcome (List Nat) :=
  match Apply NewStyler (toRunes format) with
  | .panic => .panic
  | .outOfFuel => .outOfFuel
  | .ok output => .ok (sprintf (toGoString output) args)

/-- A stand-in for `fmt.Sprintf` on one string argument: the first `%s` of the
format is replaced by the argument, everything else is copied. -/
def sprintfString : List Nat → List Nat → List Nat
  | [], _ => []
  | c :: rest, arg =>
    if c = 37 ∧ rest.head? = some 115 then arg ++ rest.tail else c :: sprintfString rest arg

/-! ## States of the scan loop -/

/-- The states of `Apply` at the head of its scan loop: the state the loop is
entered with, and the state after an iteration that returned and the loop's
`i++`. -/
inductive Reachable (named : Registry) (runes : List Int) : ApplyState → Prop where
  | init : Reachable named runes applyInit
  | step (st st1 : ApplyState) :
      Reachable named runes st → st.i < (runes.length : Int) →
      applyStep named runes st = .ok st1 →
      Reachable named runes { st1 with i := st1.i + 1 }

/-- The nesting-stack invariant: the depth is between 0 and `styleDepthMax`,
the array has `styleDepthMax` slots, and every slot from the depth on is `nil`. -/
def StackInvariant (st : ApplyState) : Prop :=
  0 ≤ st.nest ∧ st.nest ≤ (styleDepthMax : Int)
    ∧ st.appliedStyleStack.length = styleDepthMax
    ∧ ∀ j : Nat, st.nest ≤ (j : Int) → j < styleDepthMax →
        st.appliedStyleStack[j]? = some none

/-! # Lemmas and theorems -/

/-! ## Reading slices -/

theorem runeAt_natCast (runes : List Int) (n : Nat) : runeAt runes (n : Int) = runes[n]? := by
  simp [runeAt]

theorem runeAt_eq (runes : List Int) (j : Int) (n : Nat) (h : j = (n : Int)) :
    runeAt runes j = runes[n]? := by
  subst h
  exact runeAt_natCast runes n

theorem runeAt_append_cons (runes pre post : List Int) (x : Int) (j : Int)
    (hr : runes = pre ++ x :: post) (hj : j = (pre.length : Int)) :
    runeAt runes j = some x := by
  rw [runeAt_eq runes j pre.length hj, hr]
  exact List.getElem?_append_right (Nat.le_refl _) |>.trans (by simp)

/-! ## checkSequence -/

theorem checkSequenceLoop_eq (runes : List Int) (idx : Nat) :
    ∀ (rest : List Int) (i : Nat), idx + i + rest.length ≤ runes.length →
      checkSequenceLoop runes (idx : Int) rest (i : Int)
        = some (decide ((runes.drop (idx + i)).take rest.length = rest)) := by
  intro rest
  induction rest with
  | nil => intro i _; simp [checkSequenceLoop]
  | cons c rest ih =>
    intro i hlen
    simp only [List.length_cons] at hlen
    have hlt : idx + i < runes.length := by omega
    have hread : runeAt runes ((idx : Int) + (i : Int)) = some (runes[idx + i]) := by
      rw [runeAt_eq runes _ (idx + i) (by push_cast; rfl)]
      exact List.getElem?_eq_getElem hlt
    have hdrop : runes.drop (idx + i) = runes[idx + i] :: runes.drop (idx + (i + 1)) := by
      rw [← Nat.add_assoc]
      exact List.drop_eq_getElem_cons hlt
    have ih1 := ih (i + 1) (by omega)
    simp only [checkSequenceLoop, hread, hdrop, List.length_cons, List.take_succ_cons]
    by_cases hc : c = runes[idx + i]
    · have hcast : ((i : Int) + 1) = ((i + 1 : Nat) : Int) := by push_cast; rfl
      rw [hcast, ih1]
      simp [hc]
    · have hne : ¬ (runes[idx + i] = c) := fun h => hc h.symm
      simp [hc, hne]

theorem checkSequence_eq (sequence runes : List Int) (idx : Nat) :
    checkSequence sequence runes (idx : Int)
      = .ok (if idx + sequence.length ≤ runes.length
                ∧ (runes.drop idx).take sequence.length = sequence
             then ((idx : Int) + (sequence.length : Int) - 1, true)
             else ((idx : Int), false)) := by
  unfold checkSequence
  by_cases hguard : idx + sequence.length ≤ runes.length
  · have hg : ¬ ((runes.length : Int) < (sequence.length : Int)
        ∨ (runes.length : Int) - (idx : Int) < (sequence.length : Int)) := by omega
    have hloop := checkSequenceLoop_eq runes idx sequence 0 (by omega)
    simp only [Nat.add_zero] at hloop
    have h0 : ((0 : Nat) : Int) = 0 := rfl
    rw [h0] at hloop
    simp only [hg, if_false, hloop, hguard, true_and]
    by_cases hm : (runes.drop idx).take sequence.length = sequence
    · simp [hm]
    · simp [hm]
  · have hg : ((runes.length : Int) < (sequence.length : Int)
        ∨ (runes.length : Int) - (idx : Int) < (sequence.length : Int)) := by omega
    rw [if_pos hg]
    simp [hguard]

theorem checkSequence_match (sequence runes pre post : List Int) (idx : Int)
    (hr : runes = pre ++ (sequence ++ post)) (hi : idx = (pre.length : Int)) :
    checkSequence sequence runes idx
      = .ok ((pre.length : Int) + (sequence.length : Int) - 1, true) := by
  subst hi
  rw [checkSequence_eq, hr]
  simp

theorem checkSequence_openingBegin_fail (runes pre post : List Int) (idx : Int)
    (hr : runes = pre ++ 91 :: post) (hi : idx = (pre.length : Int))
    (hpost : post.head? ≠ some 126) :
    checkSequence openingBegin runes idx = .ok (idx, false) := by
  subst hi
  rw [checkSequence_eq, hr]
  cases post with
  | nil => simp [openingBegin]
  | cons p post =>
    have hp : p ≠ 126 := by simpa using hpost
    simp [openingBegin, hp]

theorem checkSequence_closing_fail (runes pre post : List Int) (idx : Int)
    (hr : runes = pre ++ 91 :: post) (hi : idx = (pre.length : Int))
    (hpost : post.head? ≠ some 47) :
    checkSequence closing runes idx = .ok (idx, false) := by
  subst hi
  rw [checkSequence_eq, hr]
  cases post with
  | nil => simp [closing]
  | cons p post =>
    have hp : p ≠ 47 := by simpa using hpost
    simp [closing, hp]

/-! ## The key slot -/

theorem keyOf_length (g : List Int) (h : g.length ≤ keySizeMax) :
    (keyOf g).length = keySizeMax := by
  simp [keyOf]
  omega

theorem keyOf_nil : keyOf [] = emptyKey := by
  simp [keyOf, emptyKey]

theorem keySet_keyOf (done : List Int) (c : Int) (count : Int)
    (hc : count = (done.length : Int)) (h : done.length < keySizeMax) :
    keySet (keyOf done) count c = some (keyOf (done ++ [c])) := by
  subst hc
  have hlen : (keyOf done).length = keySizeMax := keyOf_length done (by omega)
  have hcond : (0 : Int) ≤ (done.length : Int) ∧ (done.length : Int) < ((keyOf done).length : Int) := by
    rw [hlen]; omega
  simp only [keySet, hcond, and_self, if_true, Int.toNat_ofNat]
  congr 1
  obtain ⟨m, hm⟩ : ∃ m, keySizeMax - done.length = m + 1 := ⟨keySizeMax - done.length - 1, by omega⟩
  have hm2 : keySizeMax - (done.length + 1) = m := by omega
  simp [keyOf, hm, hm2, List.replicate_succ]

theorem keySlice_keyOf (g : List Int) (count : Int)
    (hc : count = (g.length : Int)) (h : g.length ≤ keySizeMax) :
    keySlice (keyOf g) count = some g := by
  subst hc
  have hlen : (keyOf g).length = keySizeMax := keyOf_length g h
  have hcond : (0 : Int) ≤ (g.length : Int) ∧ (g.length : Int) ≤ ((keyOf g).length : Int) := by
    rw [hlen]; omega
  simp only [keySlice, hcond, and_self, if_true, Int.toNat_ofNat]
  simp [keyOf]

/-! ## The scan loop of parseOpening -/

theorem parseOpeningLoop_chars (named : Registry) (runes : List Int) (idx after : Int) :
    ∀ (g pre post done : List Int) (fuel : Nat) (i count : Int) (sequence : List Int)
      (first numeric : Bool),
      runes = pre ++ (g ++ post) → i = (pre.length : Int) → count = (done.length : Int) →
      (∀ c ∈ g, c ≠ 43 ∧ c ≠ 93) → done.length + g.length ≤ keySizeMax →
      parseOpeningLoop named runes idx after (fuel + g.length) i count sequence first numeric
          (keyOf done)
        = parseOpeningLoop named runes idx after fuel (i + (g.length : Int))
            (count + (g.length : Int)) sequence first
            (numeric && g.all (fun c => decide (48 ≤ c ∧ c ≤ 57))) (keyOf (done ++ g)) := by
  intro g
  induction g with
  | nil =>
    intro pre post done fuel i count sequence first numeric _ _ _ _ _
    simp
  | cons c g ih =>
    intro pre post done fuel i count sequence first numeric hr hi hcount hg hlen
    simp only [List.length_cons] at hlen
    have hc := hg c (List.mem_cons_self c g)
    have hfuel : fuel + (c :: g).length = (fuel + g.length) + 1 := by simp; omega
    have hlt : i < (runes.length : Int) := by
      rw [hr, hi]; simp; omega
    have hread : runeAt runes i = some c := runeAt_append_cons runes pre (g ++ post) c i hr hi
    have hkey := keySet_keyOf done c count hcount (by omega)
    have h93 : (c == 93) = false := by simpa using hc.2
    have h43 : (c == 43) = false := by simpa using hc.1
    rw [hfuel]
    simp only [parseOpeningLoop, hlt, if_true, hread, h93, h43, Bool.or_self, Bool.false_eq_true,
      if_false, hkey]
    rw [ih (pre ++ [c]) post (done ++ [c]) fuel (i + 1) (count + 1) sequence first _
      (by rw [hr]; simp) (by rw [hi]; simp) (by rw [hcount]; simp)
      (fun x hx => hg x (List.mem_cons_of_mem c hx)) (by simp; omega)]
    have e1 : i + 1 + (g.length : Int) = i + ((c :: g).length : Int) := by simp; omega
    have e2 : count + 1 + (g.length : Int) = count + ((c :: g).length : Int) := by simp; omega
    have e3 : done ++ [c] ++ g = done ++ c :: g := by simp
    rw [e1, e2, e3]
    congr 1
    by_cases hd : 48 ≤ c ∧ c ≤ 57
    · have hnot : ¬ (c < 48 ∨ c > 57) := by omega
      simp [hd, hnot]
    · have hyes : (c < 48 ∨ c > 57) := by omega
      simp [hd, hyes]

theorem checkSequence_openingClose (runes pre post : List Int) (i : Int)
    (hr : runes = pre ++ 93 :: post) (hi : i = (pre.length : Int)) :
    checkSequence openingClose runes i = .ok (i, true) := by
  have h := checkSequence_match openingClose runes pre post i (by rw [hr]; rfl) hi
  rw [h, hi]
  simp [openingClose]

theorem parseOpeningLoop_plus (named : Registry) (runes : List Int) (idx after : Int)
    (g b pre post sequence : List Int) (first numeric : Bool) (fuel : Nat) (i count : Int)
    (hr : runes = pre ++ 43 :: post) (hi : i = (pre.length : Int))
    (hcount : count = (g.length : Int)) (hg1 : 1 ≤ g.length) (hg2 : g.length ≤ 15)
    (hres : Registry.get named (keyOf g) = some b
      ∨ (Registry.get named (keyOf g) = none ∧ numeric = true ∧ b = g)) :
    parseOpeningLoop named runes idx after (fuel + 1) i count sequence first numeric (keyOf g)
      = parseOpeningLoop named runes idx after fuel (i + 1) 0
          ((if first then sequence else sequence ++ [59]) ++ b) false true emptyKey := by
  have hlt : i < (runes.length : Int) := by rw [hr, hi]; simp
  have hread : runeAt runes i = some 43 := runeAt_append_cons runes pre post 43 i hr hi
  have hcnt : ¬ (count = 0 ∨ count ≥ (keySizeMax : Int)) := by
    rw [hcount]; simp only [keySizeMax]; omega
  have hslice := keySlice_keyOf g count hcount (by unfold keySizeMax; omega)
  rcases hres with hfound | ⟨hnone, hnum, hb⟩
  · cases first <;>
      simp [parseOpeningLoop, hlt, hread, hcnt, hfound]
  · subst hb
    cases first <;>
      simp [parseOpeningLoop, hlt, hread, hcnt, hnone, hnum, hslice]

theorem parseOpeningLoop_close (named : Registry) (runes : List Int) (idx after : Int)
    (g b pre post sequence : List Int) (first numeric : Bool) (fuel : Nat) (i count : Int)
    (hr : runes = pre ++ 93 :: post) (hi : i = (pre.length : Int))
    (hcount : count = (g.length : Int)) (hg1 : 1 ≤ g.length) (hg2 : g.length ≤ 15)
    (hres : Registry.get named (keyOf g) = some b
      ∨ (Registry.get named (keyOf g) = none ∧ numeric = true ∧ b = g)) :
    parseOpeningLoop named runes idx after (fuel + 1) i count sequence first numeric (keyOf g)
      = .ok (some ((if first then sequence else sequence ++ [59]) ++ b ++ [109]), i, true) := by
  have hlt : i < (runes.length : Int) := by rw [hr, hi]; simp
  have hread : runeAt runes i = some 93 := runeAt_append_cons runes pre post 93 i hr hi
  have hcnt : ¬ (count = 0 ∨ count ≥ (keySizeMax : Int)) := by
    rw [hcount]; simp only [keySizeMax]; omega
  have hslice := keySlice_keyOf g count hcount (by unfold keySizeMax; omega)
  have hclose := checkSequence_openingClose runes pre post i hr hi
  rcases hres with hfound | ⟨hnone, hnum, hb⟩
  · cases first <;>
      simp [parseOpeningLoop, hlt, hread, hcnt, hfound, hclose]
  · subst hb
    cases first <;>
      simp [parseOpeningLoop, hlt, hread, hcnt, hnone, hnum, hslice, hclose]

theorem parseOpeningLoop_unresolved (named : Registry) (runes : List Int) (idx after : Int)
    (g pre post sequence : List Int) (first : Bool) (fuel : Nat) (i count d : Int)
    (hd : d = 43 ∨ d = 93)
    (hr : runes = pre ++ d :: post) (hi : i = (pre.length : Int))
    (hcount : count = (g.length : Int)) (hg1 : 1 ≤ g.length) (hg2 : g.length ≤ 15)
    (hnone : Registry.get named (keyOf g) = none) :
    parseOpeningLoop named runes idx after (fuel + 1) i count sequence first false (keyOf g)
      = .ok (none, idx, false) := by
  have hlt : i < (runes.length : Int) := by rw [hr, hi]; simp
  have hread : runeAt runes i = some d := runeAt_append_cons runes pre post d i hr hi
  have hcnt : ¬ (count = 0 ∨ count ≥ (keySizeMax : Int)) := by
    rw [hcount]; simp only [keySizeMax]; omega
  rcases hd with hd | hd <;> subst hd <;> cases first <;>
    simp [parseOpeningLoop, hlt, hread, hcnt, hnone]

theorem allDigits_iff (g : List Int) :
    g.all (fun c => decide (48 ≤ c ∧ c ≤ 57)) = true ↔ AllDigits g := by
  simp [AllDigits, List.all_eq_true]

/-! ## Segments joined by a separator -/

theorem intercalate_single (sep x : List Int) : List.intercalate sep [x] = x := by
  simp [List.intercalate]

theorem intercalate_cons_cons (sep x y : List Int) (zs : List (List Int)) :
    List.intercalate sep (x :: y :: zs) = x ++ (sep ++ List.intercalate sep (y :: zs)) := by
  simp [List.intercalate]

/-- The scan loop of `parseOpening`, entered at the first rune of a segment,
resolves a run of valid, resolvable segments up to the close marker. -/
theorem parseOpeningLoop_segments (named : Registry) (runes : List Int) (idx after : Int) :
    ∀ (segs : List (List Int × List Int)), segs ≠ [] →
      (∀ s ∈ segs, ValidSegment s.1 ∧ Resolves named s.1 s.2) →
      ∀ (pre post sequence : List Int) (first : Bool) (fuel : Nat) (i : Int),
        runes = pre ++ (List.intercalate [43] (segs.map Prod.fst) ++ 93 :: post) →
        i = (pre.length : Int) →
        (List.intercalate [43] (segs.map Prod.fst)).length < fuel →
        parseOpeningLoop named runes idx after fuel i 0 sequence first true emptyKey
          = .ok (some ((if first then sequence else sequence ++ [59])
                    ++ (List.intercalate [59] (segs.map Prod.snd) ++ [109])),
                 (pre.length : Int) + ((List.intercalate [43] (segs.map Prod.fst)).length : Int),
                 true) := by
  intro segs
  induction segs with
  | nil => intro h; exact absurd rfl h
  | cons s rest ih =>
    intro _ hsegs pre post sequence first fuel i hr hi hfuel
    obtain ⟨g, b⟩ := s
    have hs := hsegs (g, b) (List.mem_cons_self _ _)
    obtain ⟨⟨hg1, hg2, hgc⟩, hres⟩ := hs
    simp only at hg1 hg2 hgc hres
    have hres2 : Registry.get named (keyOf g) = some b
        ∨ (Registry.get named (keyOf g) = none
            ∧ (true && g.all (fun c => decide (48 ≤ c ∧ c ≤ 57))) = true ∧ b = g) := by
      rcases hres with h | ⟨h1, h2, h3⟩
      · exact Or.inl h
      · exact Or.inr ⟨h1, by simpa using (allDigits_iff g).2 h2, h3⟩
    cases rest with
    | nil =>
      simp only [List.map_cons, List.map_nil, intercalate_single] at hr hfuel ⊢
      obtain ⟨f, rfl⟩ : ∃ f, fuel = (f + 1) + g.length := ⟨fuel - g.length - 1, by omega⟩
      have hchars := parseOpeningLoop_chars named runes idx after g pre (93 :: post) [] (f + 1) i 0
        sequence first true hr hi (by simp) hgc (by simp [keySizeMax]; omega)
      rw [keyOf_nil] at hchars
      rw [hchars]
      have hclose := parseOpeningLoop_close named runes idx after g b (pre ++ g) post sequence first
        (true && g.all (fun c => decide (48 ≤ c ∧ c ≤ 57))) f (i + (g.length : Int))
        (0 + (g.length : Int)) (by rw [hr]; simp) (by rw [hi]; simp) (by simp) hg1 hg2 hres2
      simp only [List.nil_append]
      rw [hclose, hi]
      simp
    | cons s2 rest2 =>
      simp only [List.map_cons, intercalate_cons_cons] at hr hfuel ⊢
      simp only [List.length_append, List.length_cons, List.length_nil] at hfuel
      obtain ⟨f, rfl⟩ : ∃ f, fuel = (f + 1) + g.length := ⟨fuel - g.length - 1, by omega⟩
      have hchars := parseOpeningLoop_chars named runes idx after g pre
        ([43] ++ List.intercalate [43] (s2.1 :: rest2.map Prod.fst) ++ 93 :: post) [] (f + 1) i 0
        sequence first true (by rw [hr]; simp) hi (by simp) hgc (by simp [keySizeMax]; omega)
      rw [keyOf_nil] at hchars
      rw [hchars]
      have hplus := parseOpeningLoop_plus named runes idx after g b (pre ++ g)
        (List.intercalate [43] (s2.1 :: rest2.map Prod.fst) ++ 93 :: post) sequence first
        (true && g.all (fun c => decide (48 ≤ c ∧ c ≤ 57))) f (i + (g.length : Int))
        (0 + (g.length : Int)) (by rw [hr]; simp) (by rw [hi]; simp) (by simp) hg1 hg2 hres2
      simp only [List.nil_append]
      rw [hplus]
      have hrec := ih (by simp) (fun s hs => hsegs s (List.mem_cons_of_mem _ hs))
        (pre ++ g ++ [43]) post ((if first then sequence else sequence ++ [59]) ++ b) false f
        (i + (g.length : Int) + 1) (by rw [hr]; simp) (by rw [hi]; simp [Int.add_assoc])
        (by simp only [List.map_cons]; omega)
      simp only [List.map_cons] at hrec
      rw [hrec]
      simp
      omega

/-- A well-formed opening tag whose segments all resolve is parsed to its
resolved sequence, and the returned index is that of the close marker. -/
theorem parseOpening_tag (named : Registry) (runes pre post : List Int) (idx : Int)
    (segs : List (List Int × List Int)) (hne : segs ≠ [])
    (hsegs : ∀ s ∈ segs, ValidSegment s.1 ∧ Resolves named s.1 s.2)
    (hr : runes = pre ++ (openingTag (segs.map Prod.fst) ++ post))
    (hi : idx = (pre.length : Int)) :
    parseOpening named runes idx
      = .ok (some (resolvedSequence (segs.map Prod.snd)),
             (pre.length : Int) + ((openingTag (segs.map Prod.fst)).length : Int) - 1, true) := by
  have hr2 : runes = pre ++ (openingBegin
      ++ (List.intercalate [43] (segs.map Prod.fst) ++ 93 :: post)) := by
    rw [hr]; simp [openingTag, openingClose]
  have hbegin := checkSequence_match openingBegin runes pre _ idx hr2 hi
  have hloop := parseOpeningLoop_segments named runes idx
    ((pre.length : Int) + (openingBegin.length : Int) - 1) segs hne hsegs
    (pre ++ openingBegin) post [27, 91] true (runes.length + 1)
    ((pre.length : Int) + (openingBegin.length : Int) - 1 + 1)
    (by rw [hr2]; simp) (by simp [openingBegin])
    (by rw [hr2]; simp; omega)
  simp only [parseOpening, hbegin, hloop]
  simp [resolvedSequence, openingTag, openingBegin, openingClose]
  omega

/-- The scan loop of `parseOpening`, entered at the first rune of a segment,
fails when one of the segments up to the close marker does not resolve. -/
theorem parseOpeningLoop_invalid (named : Registry) (runes : List Int) (idx after : Int) :
    ∀ (gs : List (List Int)),
      (∀ g ∈ gs, ValidSegment g) →
      (∃ g ∈ gs, Registry.get named (keyOf g) = none ∧ ¬ AllDigits g) →
      ∀ (pre post sequence : List Int) (first : Bool) (fuel : Nat) (i : Int),
        runes = pre ++ (List.intercalate [43] gs ++ 93 :: post) →
        i = (pre.length : Int) →
        (List.intercalate [43] gs).length < fuel →
        parseOpeningLoop named runes idx after fuel i 0 sequence first true emptyKey
          = .ok (none, idx, false) := by
  intro gs
  induction gs with
  | nil => intro _ hbad; obtain ⟨g, hg, _⟩ := hbad; exact absurd hg (List.not_mem_nil g)
  | cons g rest ih =>
    intro hvalid hbad pre post sequence first fuel i hr hi hfuel
    obtain ⟨hg1, hg2, hgc⟩ := hvalid g (List.mem_cons_self _ _)
    have hsplit : (List.intercalate [43] (g :: rest) ++ 93 :: post)
        = g ++ ((if rest = [] then 93 else 43)
            :: (if rest = [] then post else List.intercalate [43] rest ++ 93 :: post)) := by
      cases rest with
      | nil => simp [intercalate_single]
      | cons g2 rest2 => simp [intercalate_cons_cons]
    have hlen : g.length < fuel := by
      have : g.length ≤ (List.intercalate [43] (g :: rest)).length := by
        cases rest with
        | nil => simp [intercalate_single]
        | cons g2 rest2 => simp [intercalate_cons_cons]
      omega
    rw [hsplit] at hr
    obtain ⟨f, rfl⟩ : ∃ f, fuel = (f + 1) + g.length := ⟨fuel - g.length - 1, by omega⟩
    have hchars := parseOpeningLoop_chars named runes idx after g pre _ [] (f + 1) i 0
      sequence first true hr hi (by simp) hgc (by simp [keySizeMax]; omega)
    rw [keyOf_nil] at hchars
    rw [hchars]
    simp only [List.nil_append, Bool.true_and]
    by_cases hthis : Registry.get named (keyOf g) = none ∧ ¬ AllDigits g
    · have hnum : g.all (fun c => decide (48 ≤ c ∧ c ≤ 57)) = false := by
        have := (allDigits_iff g).not.2 hthis.2
        simpa using this
      rw [hnum]
      exact parseOpeningLoop_unresolved named runes idx after g (pre ++ g)
        (if rest = [] then post else List.intercalate [43] rest ++ 93 :: post) sequence first f
        (i + (g.length : Int)) (0 + (g.length : Int)) (if rest = [] then 93 else 43)
        (by by_cases h : rest = [] <;> simp [h])
        (by rw [hr]; simp) (by rw [hi]; simp) (by simp) hg1 hg2 hthis.1
    · have hbad2 : ∃ g2 ∈ rest, Registry.get named (keyOf g2) = none ∧ ¬ AllDigits g2 := by
        obtain ⟨g2, hmem, hg2bad⟩ := hbad
        rcases List.mem_cons.1 hmem with h | h
        · subst h; exact absurd hg2bad hthis
        · exact ⟨g2, h, hg2bad⟩
      have hrest : rest ≠ [] := by
        intro h; subst h
        obtain ⟨g2, hmem, _⟩ := hbad2
        exact absurd hmem (List.not_mem_nil g2)
      simp only [hrest, if_false] at hr
      have hres : Registry.get named (keyOf g) = some ((Registry.get named (keyOf g)).getD g)
          ∨ (Registry.get named (keyOf g) = none
              ∧ g.all (fun c => decide (48 ≤ c ∧ c ≤ 57)) = true
              ∧ (Registry.get named (keyOf g)).getD g = g) := by
        cases hget : Registry.get named (keyOf g) with
        | some b => exact Or.inl (by simp)
        | none =>
          refine Or.inr ⟨rfl, ?_, by simp⟩
          have hd : AllDigits g := by
            by_contra hnd
            exact hthis ⟨hget, hnd⟩
          exact (allDigits_iff g).2 hd
      have hplus := parseOpeningLoop_plus named runes idx after g
        ((Registry.get named (keyOf g)).getD g) (pre ++ g)
        (List.intercalate [43] rest ++ 93 :: post) sequence first
        (g.all (fun c => decide (48 ≤ c ∧ c ≤ 57))) f (i + (g.length : Int))
        (0 + (g.length : Int)) (by rw [hr]; simp) (by rw [hi]; simp) (by simp) hg1 hg2 hres
      rw [hplus]
      have hfuel2 : (List.intercalate [43] rest).length < f := by
        cases rest with
        | nil => exact absurd rfl hrest
        | cons g2 rest2 =>
          simp only [intercalate_cons_cons, List.length_append, List.length_cons,
            List.length_nil] at hfuel
          omega
      exact ih (fun x hx => hvalid x (List.mem_cons_of_mem _ hx)) hbad2
        (pre ++ g ++ [43]) post _ false f (i + (g.length : Int) + 1)
        (by rw [hr]; simp) (by rw [hi]; simp [Int.add_assoc]) hfuel2

/-- An opening tag with a segment that does not resolve is not parsed:
`parseOpening` reports failure and returns the index it was given. -/
theorem parseOpening_invalid (named : Registry) (runes pre post : List Int) (idx : Int)
    (gs : List (List Int)) (hvalid : ∀ g ∈ gs, ValidSegment g)
    (hbad : ∃ g ∈ gs, Registry.get named (keyOf g) = none ∧ ¬ AllDigits g)
    (hr : runes = pre ++ (openingTag gs ++ post)) (hi : idx = (pre.length : Int)) :
    parseOpening named runes idx = .ok (none, idx, false) := by
  have hr2 : runes = pre ++ (openingBegin ++ (List.intercalate [43] gs ++ 93 :: post)) := by
    rw [hr]; simp [openingTag, openingClose]
  have hbegin := checkSequence_match openingBegin runes pre _ idx hr2 hi
  have hloop := parseOpeningLoop_invalid named runes idx
    ((pre.length : Int) + (openingBegin.length : Int) - 1) gs hvalid hbad
    (pre ++ openingBegin) post [27, 91] true (runes.length + 1)
    ((pre.length : Int) + (openingBegin.length : Int) - 1 + 1)
    (by rw [hr2]; simp) (by simp [openingBegin])
    (by rw [hr2]; simp; omega)
  simp only [parseOpening, hbegin, hloop]

/-! ## The array appliedStyleStack -/

theorem stackOf_length (seqs : List (List Int)) (h : seqs.length ≤ styleDepthMax) :
    (stackOf seqs).length = styleDepthMax := by
  simp [stackOf]
  omega

theorem slotSet_stackOf_push (seqs : List (List Int)) (s : List Int) (j : Int)
    (hj : j = (seqs.length : Int)) (h : seqs.length < styleDepthMax) :
    slotSet (stackOf seqs) j (some s) = some (stackOf (seqs ++ [s])) := by
  subst hj
  have hlen := stackOf_length seqs (by omega)
  have hcond : (0 : Int) ≤ (seqs.length : Int)
      ∧ (seqs.length : Int) < ((stackOf seqs).length : Int) := by rw [hlen]; omega
  simp only [slotSet, hcond, and_self, if_true, Int.toNat_ofNat]
  congr 1
  obtain ⟨m, hm⟩ : ∃ m, styleDepthMax - seqs.length = m + 1 :=
    ⟨styleDepthMax - seqs.length - 1, by omega⟩
  have hm2 : styleDepthMax - (seqs.length + 1) = m := by omega
  have hset : ∀ (l : List (Option (List Int))) (tl : List (Option (List Int)))
      (x y : Option (List Int)), (l ++ x :: tl).set l.length y = l ++ y :: tl := by
    intro l tl x y
    induction l with
    | nil => rfl
    | cons a l ih => simp [ih]
  have := hset (seqs.map some) (List.replicate m none) none (some s)
  simp only [List.length_map] at this
  simp [stackOf, hm, hm2, List.replicate_succ, this]

theorem slotSet_stackOf_pop (seqs : List (List Int)) (s : List Int) (j : Int)
    (hj : j = (seqs.length : Int)) (h : seqs.length < styleDepthMax) :
    slotSet (stackOf (seqs ++ [s])) j none = some (stackOf seqs) := by
  subst hj
  have hlen := stackOf_length (seqs ++ [s]) (by simp; omega)
  have hcond : (0 : Int) ≤ (seqs.length : Int)
      ∧ (seqs.length : Int) < ((stackOf (seqs ++ [s])).length : Int) := by rw [hlen]; omega
  simp only [slotSet, hcond, and_self, if_true, Int.toNat_ofNat]
  congr 1
  obtain ⟨m, hm⟩ : ∃ m, styleDepthMax - seqs.length = m + 1 :=
    ⟨styleDepthMax - seqs.length - 1, by omega⟩
  have hm2 : styleDepthMax - (seqs.length + 1) = m := by omega
  have hset : ∀ (l : List (Option (List Int))) (tl : List (Option (List Int)))
      (x y : Option (List Int)), (l ++ x :: tl).set l.length y = l ++ y :: tl := by
    intro l tl x y
    induction l with
    | nil => rfl
    | cons a l ih => simp [ih]
  have := hset (seqs.map some) (List.replicate m none) (some s) none
  simp only [List.length_map] at this
  simp [stackOf, hm, hm2, List.replicate_succ, this]

theorem slotSet_stackOf_none (seqs : List (List Int)) (j : Int)
    (hj : j = (seqs.length : Int)) (h : seqs.length < styleDepthMax) :
    slotSet (stackOf seqs) j none = some (stackOf seqs) := by
  subst hj
  have hlen := stackOf_length seqs (by omega)
  have hcond : (0 : Int) ≤ (seqs.length : Int)
      ∧ (seqs.length : Int) < ((stackOf seqs).length : Int) := by rw [hlen]; omega
  simp only [slotSet, hcond, and_self, if_true, Int.toNat_ofNat]
  congr 1
  obtain ⟨m, hm⟩ : ∃ m, styleDepthMax - seqs.length = m + 1 :=
    ⟨styleDepthMax - seqs.length - 1, by omega⟩
  have hset : ∀ (l : List (Option (List Int))) (tl : List (Option (List Int)))
      (x y : Option (List Int)), (l ++ x :: tl).set l.length y = l ++ y :: tl := by
    intro l tl x y
    induction l with
    | nil => rfl
    | cons a l ih => simp [ih]
  have := hset (seqs.map some) (List.replicate m none) none none
  simp only [List.length_map] at this
  simp [stackOf, hm, List.replicate_succ, this]

theorem slotGet_stackOf_last (seqs : List (List Int)) (s : List Int) (j : Int)
    (hj : j = (seqs.length : Int)) :
    slotGet (stackOf (seqs ++ [s])) j = some (some s) := by
  subst hj
  have hget : ∀ (l tl : List (Option (List Int))) (x : Option (List Int)),
      (l ++ x :: tl)[l.length]? = some x := by
    intro l tl x
    induction l with
    | nil => simp
    | cons a l ih => simpa using ih
  have := hget (seqs.map some) (List.replicate (styleDepthMax - (seqs.length + 1)) none) (some s)
  simp only [List.length_map] at this
  simp [slotGet, stackOf, this]

theorem slotGet_stackOf_zero_nil : slotGet (stackOf []) 0 = some none := by
  simp [slotGet, stackOf, styleDepthMax, List.replicate_succ]

theorem slotGet_stackOf_zero_cons (s : List Int) (seqs : List (List Int)) :
    slotGet (stackOf (s :: seqs)) 0 = some (some s) := by
  simp [slotGet, stackOf]

theorem restoreLoop_none (nest : Int) (m : Nat) (output : List Int) :
    restoreLoop nest (List.replicate m none) nest output = output := by
  cases m with
  | zero => simp [restoreLoop]
  | succ m => simp [restoreLoop, List.replicate_succ]

theorem restoreLoop_some (nest : Int) (tl : List (Option (List Int))) :
    ∀ (l : List (List Int)) (i : Int) (output : List Int),
      i + (l.length : Int) = nest →
      restoreLoop nest (l.map some ++ tl) i output
        = restoreLoop nest tl nest (output ++ l.flatten) := by
  intro l
  induction l with
  | nil =>
    intro i output h
    simp at h
    subst h
    simp
  | cons s l ih =>
    intro i output h
    simp only [List.length_cons] at h
    have hlt : i < nest := by omega
    have hstep : restoreLoop nest ((s :: l).map some ++ tl) i output
        = restoreLoop nest (l.map some ++ tl) (i + 1) (output ++ s) := by
      simp [restoreLoop, hlt, sliceRunes]
    rw [hstep, ih (i + 1) (output ++ s) (by push_cast at h ⊢; omega)]
    simp

theorem restoreLoop_stackOf (seqs : List (List Int)) (nest : Int) (output : List Int)
    (h : nest = (seqs.length : Int)) :
    restoreLoop nest (stackOf seqs) 0 output = output ++ seqs.flatten := by
  unfold stackOf
  rw [restoreLoop_some nest _ seqs 0 output (by omega), restoreLoop_none]

/-! ## The scan loop of Apply -/

theorem parseOpening_no_marker (named : Registry) (runes pre post : List Int) (i : Int)
    (hr : runes = pre ++ 91 :: post) (hi : i = (pre.length : Int))
    (hpost : post.head? ≠ some 126) :
    parseOpening named runes i = .ok (none, i, false) := by
  simp only [parseOpening, checkSequence_openingBegin_fail runes pre post i hr hi hpost]

theorem applyLoop_done (named : Registry) (runes : List Int) (fuel : Nat) (st : ApplyState)
    (h : ¬ st.i < (runes.length : Int)) :
    applyLoop named runes (fuel + 1) st = .ok st := by
  simp [applyLoop, h]

theorem applyLoop_step (named : Registry) (runes : List Int) (fuel : Nat) (st st1 : ApplyState)
    (h : st.i < (runes.length : Int)) (hs : applyStep named runes st = .ok st1) :
    applyLoop named runes (fuel + 1) st
      = applyLoop named runes fuel { st1 with i := st1.i + 1 } := by
  simp [applyLoop, h, hs]

theorem applyStep_literal (named : Registry) (runes : List Int) (st : ApplyState) (r : Int)
    (hread : runeAt runes st.i = some r) (hr : r ≠ 91) :
    applyStep named runes st = .ok { st with output := st.output ++ [r] } := by
  simp [applyStep, applyClosing, hread, hr]

/-- A run of runes without `[` is copied to the output, one rune per iteration. -/
theorem applyLoop_literal (named : Registry) (runes : List Int) :
    ∀ (lit pre post : List Int) (fuel : Nat) (i nest : Int)
      (stack : List (Option (List Int))) (out : List Int),
      runes = pre ++ (lit ++ post) → i = (pre.length : Int) → (∀ c ∈ lit, c ≠ 91) →
      applyLoop named runes (fuel + lit.length)
          { i := i, nest := nest, appliedStyleStack := stack, output := out }
        = applyLoop named runes fuel
          { i := i + (lit.length : Int), nest := nest, appliedStyleStack := stack,
            output := out ++ lit } := by
  intro lit
  induction lit with
  | nil => intro pre post fuel i nest stack out _ _ _; simp
  | cons c lit ih =>
    intro pre post fuel i nest stack out hr hi hlit
    have hfuel : fuel + (c :: lit).length = (fuel + lit.length) + 1 := by simp; omega
    have hlt : i < (runes.length : Int) := by rw [hr, hi]; simp; omega
    have hread : runeAt runes i = some c := runeAt_append_cons runes pre (lit ++ post) c i hr hi
    have hstep := applyStep_literal named runes
      { i := i, nest := nest, appliedStyleStack := stack, output := out } c hread
      (hlit c (List.mem_cons_self _ _))
    rw [hfuel, applyLoop_step named runes _ _ _ hlt hstep]
    simp only
    rw [ih (pre ++ [c]) post fuel (i + 1) nest stack (out ++ [c]) (by rw [hr]; simp)
      (by rw [hi]; simp) (fun x hx => hlit x (List.mem_cons_of_mem _ hx))]
    have e1 : i + 1 + (lit.length : Int) = i + ((c :: lit).length : Int) := by simp; omega
    rw [e1]
    simp

/-- A `[` that starts neither a parsed opening tag nor a consumed closing tag
is copied to the output, and the stack is left as it was. -/
theorem applyStep_bracket (named : Registry) (runes pre post : List Int)
    (seqs : List (List Int)) (i nest : Int) (out : List Int)
    (hr : runes = pre ++ 91 :: post) (hi : i = (pre.length : Int))
    (hn : nest = (seqs.length : Int)) (hdepth : seqs.length ≤ styleDepthMax)
    (hopen : seqs.length < styleDepthMax → parseOpening named runes i = .ok (none, i, false))
    (hclose : 0 < seqs.length → checkSequence closing runes i = .ok (i, false)) :
    applyStep named runes { i := i, nest := nest, appliedStyleStack := stackOf seqs, output := out }
      = .ok { i := i, nest := nest, appliedStyleStack := stackOf seqs, output := out ++ [91] } := by
  have hread : runeAt runes i = some 91 := runeAt_append_cons runes pre post 91 i hr hi
  have hclosing : applyClosing runes 91
      { i := i, nest := nest, appliedStyleStack := stackOf seqs, output := out }
      = .ok { i := i, nest := nest, appliedStyleStack := stackOf seqs, output := out ++ [91] } := by
    by_cases h0 : 0 < seqs.length
    · have hpos : nest > 0 := by omega
      simp [applyClosing, hpos, hclose h0]
    · have hnot : ¬ nest > 0 := by omega
      simp [applyClosing, hnot]
  by_cases h5 : seqs.length < styleDepthMax
  · have hlt : nest < (styleDepthMax : Int) := by omega
    have hset := slotSet_stackOf_none seqs nest hn h5
    simp only [applyStep, hread, hlt, and_self, if_true, hopen h5, hset]
    simpa using hclosing
  · have hnot : ¬ nest < (styleDepthMax : Int) := by omega
    simp only [applyStep, hread, hnot, and_false, if_false]
    exact hclosing

theorem applyLoop_bracket (named : Registry) (runes pre post : List Int)
    (seqs : List (List Int)) (fuel : Nat) (i nest : Int) (out : List Int)
    (hr : runes = pre ++ 91 :: post) (hi : i = (pre.length : Int))
    (hn : nest = (seqs.length : Int)) (hdepth : seqs.length ≤ styleDepthMax)
    (hopen : seqs.length < styleDepthMax → parseOpening named runes i = .ok (none, i, false))
    (hclose : 0 < seqs.length → checkSequence closing runes i = .ok (i, false)) :
    applyLoop named runes (fuel + 1)
        { i := i, nest := nest, appliedStyleStack := stackOf seqs, output := out }
      = applyLoop named runes fuel
        { i := i + 1, nest := nest, appliedStyleStack := stackOf seqs, output := out ++ [91] } := by
  have hlt : i < (runes.length : Int) := by rw [hr, hi]; simp
  rw [applyLoop_step named runes _ _ _ hlt
    (applyStep_bracket named runes pre post seqs i nest out hr hi hn hdepth hopen hclose)]

/-- A parsed opening tag: its sequence is stored in the slot of the current
depth and emitted, the depth grows by one and the cursor is on the tag's
close marker. -/
theorem applyStep_open (named : Registry) (runes pre post : List Int)
    (seqs : List (List Int)) (sequence : List Int) (i i1 nest : Int) (out : List Int)
    (hr : runes = pre ++ 91 :: post) (hi : i = (pre.length : Int))
    (hn : nest = (seqs.length : Int)) (hdepth : seqs.length < styleDepthMax)
    (hopen : parseOpening named runes i = .ok (some sequence, i1, true)) :
    applyStep named runes { i := i, nest := nest, appliedStyleStack := stackOf seqs, output := out }
      = .ok { i := i1, nest := nest + 1, appliedStyleStack := stackOf (seqs ++ [sequence]),
              output := out ++ sequence } := by
  have hread : runeAt runes i = some 91 := runeAt_append_cons runes pre post 91 i hr hi
  have hlt : nest < (styleDepthMax : Int) := by omega
  have hpos : nest + 1 > 0 := by omega
  have hset := slotSet_stackOf_push seqs sequence nest hn hdepth
  have hget := slotGet_stackOf_last seqs sequence nest hn
  simp [applyStep, hread, hlt, hopen, hset, hpos, hget, sliceRunes]

theorem applyLoop_open (named : Registry) (runes pre post : List Int)
    (segs : List (List Int × List Int)) (seqs : List (List Int)) (fuel : Nat) (i nest : Int)
    (out : List Int) (hne : segs ≠ [])
    (hsegs : ∀ s ∈ segs, ValidSegment s.1 ∧ Resolves named s.1 s.2)
    (hr : runes = pre ++ (openingTag (segs.map Prod.fst) ++ post))
    (hi : i = (pre.length : Int))
    (hn : nest = (seqs.length : Int)) (hdepth : seqs.length < styleDepthMax) :
    applyLoop named runes (fuel + 1)
        { i := i, nest := nest, appliedStyleStack := stackOf seqs, output := out }
      = applyLoop named runes fuel
        { i := i + ((openingTag (segs.map Prod.fst)).length : Int), nest := nest + 1,
          appliedStyleStack := stackOf (seqs ++ [resolvedSequence (segs.map Prod.snd)]),
          output := out ++ resolvedSequence (segs.map Prod.snd) } := by
  have hr2 : runes = pre ++ 91 :: (126 :: (List.intercalate [43] (segs.map Prod.fst)
      ++ (openingClose ++ post))) := by
    rw [hr]; simp [openingTag, openingBegin]
  have hlt : i < (runes.length : Int) := by rw [hr2, hi]; simp; omega
  have hparse := parseOpening_tag named runes pre post i segs hne hsegs hr hi
  have hstep := applyStep_open named runes pre _ seqs _ i _ nest out hr2 hi hn hdepth hparse
  rw [applyLoop_step named runes _ _ _ hlt hstep]
  simp only
  have e : (pre.length : Int) + ((openingTag (segs.map Prod.fst)).length : Int) - 1 + 1
      = i + ((openingTag (segs.map Prod.fst)).length : Int) := by omega
  rw [e]

theorem applyClosing_close (runes pre post : List Int) (seqs : List (List Int)) (s : List Int)
    (i nest : Int) (out : List Int)
    (hr : runes = pre ++ (closing ++ post)) (hi : i = (pre.length : Int))
    (hn : nest = (seqs.length : Int) + 1) (hdepth : seqs.length < styleDepthMax)
    (hlast : post ≠ [] ∨ seqs = []) :
    applyClosing runes 91
        { i := i, nest := nest, appliedStyleStack := stackOf (seqs ++ [s]), output := out }
      = .ok { i := i + 2, nest := nest - 1, appliedStyleStack := stackOf seqs,
              output := out ++ reset ++ seqs.flatten } := by
  have hpos : nest > 0 := by omega
  have hnn : nest - 1 ≥ 0 := by omega
  have hcs := checkSequence_match closing runes pre post i hr hi
  have hi1 : (pre.length : Int) + (closing.length : Int) - 1 = i + 2 := by
    simp [closing]; omega
  rw [hi1] at hcs
  have hpop := slotSet_stackOf_pop seqs s (nest - 1) (by omega) hdepth
  have hrestore := restoreLoop_stackOf seqs (nest - 1) (out ++ reset) (by omega)
  by_cases hend : i + 2 + 1 = (runes.length : Int)
  · have hpost : post = [] := by
      have hlen : (runes.length : Int) = (pre.length : Int) + 3 + (post.length : Int) := by
        rw [hr]; simp [closing]; omega
      have : post.length = 0 := by omega
      exact List.length_eq_zero.1 this
    have hseqs : seqs = [] := by
      rcases hlast with h | h
      · exact absurd hpost h
      · exact h
    subst hseqs
    have hzero := slotSet_stackOf_none [] 0 (by simp) (by simp [styleDepthMax])
    simp only [applyClosing, hpos, and_self, if_true, hcs, hnn, hpop, hend, hzero, hrestore]
  · simp only [applyClosing, hpos, and_self, if_true, hcs, hnn, hpop, hend, if_false, hrestore]

/-- A consumed closing tag: the reset is emitted, then the sequences of the
scopes that stay open, in opening order; the depth shrinks by one and the
cursor is on the last rune of the tag. -/
theorem applyStep_close (named : Registry) (runes pre post : List Int)
    (seqs : List (List Int)) (s : List Int) (i nest : Int) (out : List Int)
    (hr : runes = pre ++ (closing ++ post)) (hi : i = (pre.length : Int))
    (hn : nest = (seqs.length : Int) + 1) (hdepth : seqs.length < styleDepthMax)
    (hlast : post ≠ [] ∨ seqs = []) :
    applyStep named runes
        { i := i, nest := nest, appliedStyleStack := stackOf (seqs ++ [s]), output := out }
      = .ok { i := i + 2, nest := nest - 1, appliedStyleStack := stackOf seqs,
              output := out ++ reset ++ seqs.flatten } := by
  have hr2 : runes = pre ++ 91 :: (47 :: 93 :: post) := by rw [hr]; simp [closing]
  have hread : runeAt runes i = some 91 := runeAt_append_cons runes pre _ 91 i hr2 hi
  have hclosing := applyClosing_close runes pre post seqs s i nest out hr hi hn hdepth hlast
  by_cases h5 : nest < (styleDepthMax : Int)
  · have hparse := parseOpening_no_marker named runes pre _ i hr2 hi (by simp)
    have hset := slotSet_stackOf_none (seqs ++ [s]) nest (by simp [hn])
      (by simp only [List.length_append, List.length_singleton]; omega)
    simp only [applyStep, hread, h5, and_self, if_true, hparse, hset]
    simpa using hclosing
  · simp only [applyStep, hread, h5, and_false, if_false]
    exact hclosing

theorem applyLoop_close (named : Registry) (runes pre post : List Int)
    (seqs : List (List Int)) (s : List Int) (fuel : Nat) (i nest : Int) (out : List Int)
    (hr : runes = pre ++ (closing ++ post)) (hi : i = (pre.length : Int))
    (hn : nest = (seqs.length : Int) + 1) (hdepth : seqs.length < styleDepthMax)
    (hlast : post ≠ [] ∨ seqs = []) :
    applyLoop named runes (fuel + 1)
        { i := i, nest := nest, appliedStyleStack := stackOf (seqs ++ [s]), output := out }
      = applyLoop named runes fuel
        { i := i + 3, nest := nest - 1, appliedStyleStack := stackOf seqs,
          output := out ++ reset ++ seqs.flatten } := by
  have hlt : i < (runes.length : Int) := by rw [hr, hi]; simp [closing]; omega
  rw [applyLoop_step named runes _ _ _ hlt
    (applyStep_close named runes pre post seqs s i nest out hr hi hn hdepth hlast)]
  simp only
  have e : i + 2 + 1 = i + 3 := by omega
  rw [e]

/-- The value `Apply` returns once the scan loop has ended with all scopes closed. -/
theorem Apply_of_scan_closed (named : Registry) (runes : List Int) (i nest : Int)
    (out : List Int)
    (h : applyScan named runes
      = .ok { i := i, nest := nest, appliedStyleStack := stackOf [], output := out }) :
    Apply named runes = .ok out := by
  simp [Apply, h, slotGet_stackOf_zero_nil]

/-- The value `Apply` returns once the scan loop has ended with the root slot set. -/
theorem Apply_of_scan_open (named : Registry) (runes : List Int) (i nest : Int)
    (out s : List Int) (seqs : List (List Int))
    (h : applyScan named runes
      = .ok { i := i, nest := nest, appliedStyleStack := stackOf (s :: seqs), output := out }) :
    Apply named runes = .ok (out ++ reset) := by
  simp [Apply, h, slotGet_stackOf_zero_cons]

theorem applyInit_eq : applyInit
    = { i := 0, nest := 0, appliedStyleStack := stackOf [], output := reset } := by
  simp [applyInit, stackOf]

/-! ## Inputs without an opening marker -/

theorem applyLoop_without_marker (named : Registry) (runes : List Int)
    (h : ∀ k, k < runes.length → ¬ (runes[k]? = some 91 ∧ runes[k + 1]? = some 126)) :
    ∀ (post pre out : List Int) (fuel : Nat),
      runes = pre ++ post → post.length < fuel →
      applyLoop named runes fuel
          { i := (pre.length : Int), nest := 0, appliedStyleStack := stackOf [], output := out }
        = .ok { i := (runes.length : Int), nest := 0, appliedStyleStack := stackOf [],
                output := out ++ post } := by
  intro post
  induction post with
  | nil =>
    intro pre out fuel hr hfuel
    obtain ⟨f, rfl⟩ : ∃ f, fuel = f + 1 := ⟨fuel - 1, by simp at hfuel; omega⟩
    have hlen : runes.length = pre.length := by rw [hr]; simp
    rw [applyLoop_done named runes f _ (by simp [hlen])]
    simp [hlen]
  | cons c post ih =>
    intro pre out fuel hr hfuel
    simp only [List.length_cons] at hfuel
    obtain ⟨f, rfl⟩ : ∃ f, fuel = f + 1 := ⟨fuel - 1, by omega⟩
    have hnext := ih (pre ++ [c]) (out ++ [c]) f (by rw [hr]; simp) (by omega)
    have hcast : (((pre ++ [c]).length : Nat) : Int) = (pre.length : Int) + 1 := by simp
    rw [hcast] at hnext
    have hout : out ++ [c] ++ post = out ++ c :: post := by simp
    rw [hout] at hnext
    by_cases hc : c = 91
    · subst hc
      have hk := h pre.length (by rw [hr]; simp)
      have h0 : runes[pre.length]? = some 91 := by
        rw [← runeAt_natCast]
        exact runeAt_append_cons runes pre post 91 _ hr rfl
      have h1 : runes[pre.length + 1]? = post.head? := by
        rw [hr]
        rw [List.getElem?_append_right (by omega)]
        cases post <;> simp
      have hhead : post.head? ≠ some 126 := by
        intro hp
        exact hk ⟨h0, by rw [h1, hp]⟩
      rw [applyLoop_bracket named runes pre post [] f _ 0 out hr rfl (by simp)
        (by simp [styleDepthMax])
        (fun _ => parseOpening_no_marker named runes pre post _ hr rfl hhead)
        (fun h0 => absurd h0 (by simp))]
      exact hnext
    · have hlit := applyLoop_literal named runes [c] pre post f (pre.length : Int) 0 (stackOf [])
        out (by rw [hr]; simp) rfl (by simpa using hc)
      simp only [List.length_singleton, Nat.cast_one] at hlit
      rw [hlit]
      exact hnext

/-- C5. An input without the opening marker `[~` (no position holds `[`
directly followed by `~`) passes through: `Apply` returns the reset sequence
followed by the input, and appends no trailing reset. Lone `[` runes and the
closing marker `[/]` are allowed in the input. -/
theorem Apply_without_marker (named : Registry) (runes : List Int)
    (h : ∀ k, k < runes.length → ¬ (runes[k]? = some 91 ∧ runes[k + 1]? = some 126)) :
    Apply named runes = .ok (reset ++ runes) := by
  have hscan := applyLoop_without_marker named runes h runes [] reset (runes.length + 1)
    (by simp) (by omega)
  apply Apply_of_scan_closed named runes (runes.length : Int) 0
  rw [applyScan, applyInit_eq]
  exact hscan

/-- C5 at `a[b[/]c[` and a registry with the built-in styles: lone brackets
and a closing marker at depth 0 are copied. -/
theorem Apply_without_marker_witness :
    Apply NewStyler (runesOf "a[b[/]c[") = .ok (reset ++ runesOf "a[b[/]c[") :=
  Apply_without_marker NewStyler (runesOf "a[b[/]c[") (by decide)

/-! ## Flat texts: scopes one after the other -/

theorem applyLoop_scopes (named : Registry) (runes : List Int) :
    ∀ (scopes : List Scope),
      (∀ s ∈ scopes, ValidSegment s.name ∧ Registry.get named (keyOf s.name) = some s.body) →
      (∀ s ∈ scopes, (∀ c ∈ s.text, c ≠ 91) ∧ (∀ c ∈ s.after, c ≠ 91)) →
      ∀ (pre out : List Int) (fuel : Nat),
        runes = pre ++ scopes.flatMap Scope.source →
        (scopes.flatMap Scope.source).length < fuel →
        applyLoop named runes fuel
            { i := (pre.length : Int), nest := 0, appliedStyleStack := stackOf [], output := out }
          = .ok { i := (runes.length : Int), nest := 0, appliedStyleStack := stackOf [],
                  output := out ++ scopes.flatMap Scope.rendered } := by
  intro scopes
  induction scopes with
  | nil =>
    intro _ _ pre out fuel hr hfuel
    obtain ⟨f, rfl⟩ : ∃ f, fuel = f + 1 := ⟨fuel - 1, by simp at hfuel; omega⟩
    have hlen : runes.length = pre.length := by rw [hr]; simp
    rw [applyLoop_done named runes f _ (by simp [hlen])]
    simp [hlen]
  | cons s rest ih =>
    intro hnames htexts pre out fuel hr hfuel
    obtain ⟨hvalid, hget⟩ := hnames s (List.mem_cons_self _ _)
    obtain ⟨htext, hafter⟩ := htexts s (List.mem_cons_self _ _)
    simp only [List.flatMap_cons, Scope.source, List.length_append, closing, List.length_cons,
      List.length_nil] at hfuel
    simp only [List.flatMap_cons, Scope.source] at hr
    obtain ⟨f, rfl⟩ : ∃ f, fuel = f + s.after.length + 1 + s.text.length + 1 :=
      ⟨fuel - s.after.length - 1 - s.text.length - 1, by omega⟩
    have hrest : (rest.flatMap Scope.source).length < f := by
      have : 1 ≤ (openingTag [s.name]).length := by simp [openingTag, openingBegin]
      omega
    have hopen := applyLoop_open named runes pre
      (s.text ++ (closing ++ s.after) ++ rest.flatMap Scope.source) [(s.name, s.body)] []
      (f + s.after.length + 1 + s.text.length) (pre.length : Int) 0 out (by simp)
      (by
        intro x hx
        simp only [List.mem_singleton] at hx
        subst hx
        exact ⟨hvalid, Or.inl hget⟩)
      (by rw [hr]; simp) rfl (by simp) (by simp [styleDepthMax])
    simp only [List.map_cons, List.map_nil] at hopen
    rw [hopen]
    have htextrun := applyLoop_literal named runes s.text (pre ++ openingTag [s.name])
      (closing ++ s.after ++ rest.flatMap Scope.source) (f + s.after.length + 1)
      ((pre.length : Int) + ((openingTag [s.name]).length : Int)) (0 + 1)
      (stackOf ([] ++ [resolvedSequence [s.body]])) (out ++ resolvedSequence [s.body])
      (by rw [hr]; simp) (by simp) htext
    rw [htextrun]
    have hclose := applyLoop_close named runes (pre ++ openingTag [s.name] ++ s.text)
      (s.after ++ rest.flatMap Scope.source) [] (resolvedSequence [s.body]) (f + s.after.length)
      ((pre.length : Int) + ((openingTag [s.name]).length : Int) + (s.text.length : Int)) (0 + 1)
      (out ++ resolvedSequence [s.body] ++ s.text)
      (by rw [hr]; simp) (by simp [Int.add_assoc]) (by simp) (by simp [styleDepthMax]) (Or.inr rfl)
    rw [hclose]
    have hafterrun := applyLoop_literal named runes s.after
      (pre ++ openingTag [s.name] ++ s.text ++ closing) (rest.flatMap Scope.source) f
      ((pre.length : Int) + ((openingTag [s.name]).length : Int) + (s.text.length : Int) + 3)
      (0 + 1 - 1) (stackOf [])
      (out ++ resolvedSequence [s.body] ++ s.text ++ reset ++ ([] : List (List Int)).flatten)
      (by rw [hr]; simp) (by simp [closing, Int.add_assoc]) hafter
    rw [hafterrun]
    have hnext := ih (fun x hx => hnames x (List.mem_cons_of_mem _ hx))
      (fun x hx => htexts x (List.mem_cons_of_mem _ hx))
      (pre ++ openingTag [s.name] ++ s.text ++ closing ++ s.after)
      (out ++ resolvedSequence [s.body] ++ s.text ++ reset ++ ([] : List (List Int)).flatten
        ++ s.after) f (by rw [hr]; simp) hrest
    have hcursor : (((pre ++ openingTag [s.name] ++ s.text ++ closing ++ s.after).length : Nat) : Int)
        = (pre.length : Int) + ((openingTag [s.name]).length : Int) + (s.text.length : Int) + 3
            + (s.after.length : Int) := by
      simp [closing]; omega
    have hnest : (0 : Int) + 1 - 1 = 0 := by norm_num
    rw [hcursor] at hnext
    rw [hnest, hnext]
    simp [Scope.rendered]

/-- C2. Well-formed, fully closed, non-nested scopes. For a list of scopes
whose names are valid segments (1 to 15 runes, no `+`, no `]`) registered
with their bodies, and whose texts and separators hold no `[`, `Apply` on
`[~n_1]t_1[/]u_1 ... [~n_k]t_k[/]u_k` returns the reset sequence followed, for
each scope in order, by `ESC [ b_i m`, `t_i`, the reset sequence and `u_i`;
nothing is appended after the last scope. -/
theorem Apply_sequential_scopes (named : Registry) (scopes : List Scope)
    (hnames : ∀ s ∈ scopes,
      ValidSegment s.name ∧ Registry.get named (keyOf s.name) = some s.body)
    (htexts : ∀ s ∈ scopes, (∀ c ∈ s.text, c ≠ 91) ∧ (∀ c ∈ s.after, c ≠ 91)) :
    Apply named (scopes.flatMap Scope.source)
      = .ok (reset ++ scopes.flatMap Scope.rendered) := by
  have hscan := applyLoop_scopes named (scopes.flatMap Scope.source) scopes hnames htexts []
    reset ((scopes.flatMap Scope.source).length + 1) (by simp) (by omega)
  apply Apply_of_scan_closed named _ ((scopes.flatMap Scope.source).length : Int) 0
  rw [applyScan, applyInit_eq]
  exact hscan

/-- C2 on the two texts of the test table, with the built-in styles:
`[~bold]bolded text[/]` and `[~red]one[/] [~blue]two[/] [~black]three[/]`. -/
theorem Apply_sequential_scopes_witness :
    Apply NewStyler (runesOf "[~bold]bolded text[/]")
        = .ok (runesOf "\x1b[0m\x1b[1mbolded text\x1b[0m")
      ∧ Apply NewStyler (runesOf "[~red]one[/] [~blue]two[/] [~black]three[/]")
        = .ok (runesOf "\x1b[0m\x1b[31mone\x1b[0m \x1b[34mtwo\x1b[0m \x1b[30mthree\x1b[0m") :=
  ⟨Apply_sequential_scopes NewStyler
      [{ name := runesOf "bold", body := runesOf "1", text := runesOf "bolded text", after := [] }]
      (by decide) (by decide),
   Apply_sequential_scopes NewStyler
      [{ name := runesOf "red", body := runesOf "31", text := runesOf "one", after := runesOf " " },
       { name := runesOf "blue", body := runesOf "34", text := runesOf "two", after := runesOf " " },
       { name := runesOf "black", body := runesOf "30", text := runesOf "three", after := [] }]
      (by decide) (by decide)⟩

/-! ## Closing a nested scope -/

/-- C3. Nesting restoration. Let the cursor stand on a closing tag `[/]` that
is not the last thing in the input, while the scopes with the resolved
sequences `opened = [s_1, ..., s_k]` (in opening order, `1 ≤ k ≤ 5`) are open:
the depth is `k` and slot `d` of the stack holds `s_(d+1)`. Then the iteration
of the scan loop succeeds; it appends to the output exactly the reset sequence
followed by `s_1 ++ ... ++ s_(k-1)`, the depth becomes `k - 1`, the stack is
that of the scopes `s_1 .. s_(k-1)`, and the cursor is on the last rune of the
tag (the loop's increment then moves it past the tag). -/
theorem closing_tag_restores_ancestors (named : Registry) (runes pre post : List Int)
    (opened : List (List Int)) (out : List Int)
    (hr : runes = pre ++ (closing ++ post)) (hpost : post ≠ [])
    (h1 : 1 ≤ opened.length) (h5 : opened.length ≤ styleDepthMax) :
    applyStep named runes
        { i := (pre.length : Int), nest := (opened.length : Int),
          appliedStyleStack := stackOf opened, output := out }
      = .ok { i := (pre.length : Int) + 2, nest := (opened.length : Int) - 1,
              appliedStyleStack := stackOf opened.dropLast,
              output := out ++ reset ++ opened.dropLast.flatten } := by
  have hne : opened ≠ [] := by
    intro h; subst h; simp at h1
  have hsplit : opened = opened.dropLast ++ [opened.getLast hne] :=
    (List.dropLast_append_getLast hne).symm
  have hlen : opened.length = opened.dropLast.length + 1 := by
    rw [List.length_dropLast]; omega
  have hstep := applyStep_close named runes pre post opened.dropLast (opened.getLast hne)
    (pre.length : Int) (opened.length : Int) out hr rfl (by rw [hlen]; simp) (by omega)
    (Or.inl hpost)
  rw [← hsplit] at hstep
  exact hstep

/-- C3 on the nested text of the test table, with the built-in styles: the
step at the first closing tag (italic, bold and red are open, so the reset is
followed by the italic and the bold sequence), and the whole rendering. -/
theorem closing_tag_restores_ancestors_witness :
    applyStep NewStyler
        (runesOf "[~italic]this text is [~bold]bold [~red]red[/]-ish[/] and italic[/]")
        { i := ((runesOf "[~italic]this text is [~bold]bold [~red]red").length : Int),
          nest := (([runesOf "\x1b[3m", runesOf "\x1b[1m", runesOf "\x1b[31m"]).length : Int),
          appliedStyleStack :=
            stackOf [runesOf "\x1b[3m", runesOf "\x1b[1m", runesOf "\x1b[31m"],
          output := runesOf "\x1b[0m\x1b[3mthis text is \x1b[1mbold \x1b[31mred" }
      = .ok { i := ((runesOf "[~italic]this text is [~bold]bold [~red]red").length : Int) + 2,
              nest := (([runesOf "\x1b[3m", runesOf "\x1b[1m", runesOf "\x1b[31m"]).length : Int)
                - 1,
              appliedStyleStack :=
                stackOf ([runesOf "\x1b[3m", runesOf "\x1b[1m", runesOf "\x1b[31m"]).dropLast,
              output := runesOf "\x1b[0m\x1b[3mthis text is \x1b[1mbold \x1b[31mred" ++ reset
                ++ (([runesOf "\x1b[3m", runesOf "\x1b[1m", runesOf "\x1b[31m"]).dropLast).flatten }
      ∧ Apply NewStyler
          (runesOf "[~italic]this text is [~bold]bold [~red]red[/]-ish[/] and italic[/]")
        = .ok (runesOf ("\x1b[0m\x1b[3mthis text is \x1b[1mbold \x1b[31mred"
            ++ "\x1b[0m\x1b[3m\x1b[1m-ish\x1b[0m\x1b[3m and italic\x1b[0m")) :=
  ⟨closing_tag_restores_ancestors NewStyler
      (runesOf "[~italic]this text is [~bold]bold [~red]red[/]-ish[/] and italic[/]")
      (runesOf "[~italic]this text is [~bold]bold [~red]red")
      (runesOf "-ish[/] and italic[/]")
      [runesOf "\x1b[3m", runesOf "\x1b[1m", runesOf "\x1b[31m"]
      (runesOf "\x1b[0m\x1b[3mthis text is \x1b[1mbold \x1b[31mred")
      (by decide) (by decide) (by decide) (by decide),
   by decide⟩

/-! ## Resolution of the segments of a tag -/

/-- C8. Segment resolution. For a non-empty list of segments, each a valid
segment (1 to 15 runes, no `+`, no `]`) that resolves to its body (the
registered value when the segment is a key of the registry, also when it is
all digits; the segment itself when it is no key and all digits),
`parseOpening` at the index where `[~g_1+...+g_k]` starts succeeds, returns
the index of the tag's last rune, which is the closing `]`, and returns
exactly `ESC [ body_1 ; ... ; body_k m`. -/
theorem parseOpening_resolves_segments (named : Registry) (pre post : List Int)
    (segs : List (List Int × List Int)) (hne : segs ≠ [])
    (hsegs : ∀ s ∈ segs, ValidSegment s.1 ∧ Resolves named s.1 s.2) :
    parseOpening named (pre ++ (openingTag (segs.map Prod.fst) ++ post)) (pre.length : Int)
        = .ok (some (resolvedSequence (segs.map Prod.snd)),
               (pre.length : Int) + ((openingTag (segs.map Prod.fst)).length : Int) - 1, true)
      ∧ runeAt (pre ++ (openingTag (segs.map Prod.fst) ++ post))
          ((pre.length : Int) + ((openingTag (segs.map Prod.fst)).length : Int) - 1)
        = some 93 := by
  refine ⟨parseOpening_tag named _ pre post _ segs hne hsegs rfl rfl, ?_⟩
  apply runeAt_append_cons _
    (pre ++ (openingBegin ++ List.intercalate [43] (segs.map Prod.fst))) post 93
  · simp [openingTag, openingClose]
  · simp [openingTag, openingClose, openingBegin]
    omega

/-- C8 with the built-in styles: `[~bold+red]` and `[~1+31]` both resolve to
`ESC [ 1 ; 31 m`, and the index returned is that of the closing `]`. -/
theorem parseOpening_resolves_segments_witness :
    (parseOpening NewStyler (runesOf "[~bold+red]") 0
        = .ok (some (runesOf "\x1b[1;31m"), 10, true)
      ∧ runeAt (runesOf "[~bold+red]") 10 = some 93)
    ∧ (parseOpening NewStyler (runesOf "[~1+31]") 0
        = .ok (some (runesOf "\x1b[1;31m"), 6, true)
      ∧ runeAt (runesOf "[~1+31]") 6 = some 93) :=
  ⟨parseOpening_resolves_segments NewStyler [] []
      [(runesOf "bold", runesOf "1"), (runesOf "red", runesOf "31")] (by decide) (by decide),
   parseOpening_resolves_segments NewStyler [] []
      [(runesOf "1", runesOf "1"), (runesOf "31", runesOf "31")] (by decide) (by decide)⟩

/-! ## Tags that are not parsed -/

theorem openingTag_eq_cons (gs : List (List Int)) :
    openingTag gs = 91 :: (126 :: (List.intercalate [43] gs ++ [93])) := by
  simp [openingTag, openingBegin, openingClose]

theorem intercalate_no_bracket :
    ∀ (gs : List (List Int)), (∀ g ∈ gs, ∀ c ∈ g, c ≠ 91) →
      ∀ c ∈ List.intercalate [43] gs, c ≠ 91 := by
  intro gs
  induction gs with
  | nil => intro _ c hc; simp [List.intercalate] at hc
  | cons g rest ih =>
    intro hgs c hc
    cases rest with
    | nil =>
      rw [intercalate_single] at hc
      exact hgs g (List.mem_cons_self _ _) c hc
    | cons g2 rest2 =>
      rw [intercalate_cons_cons] at hc
      rcases List.mem_append.1 hc with h | h
      · exact hgs g (List.mem_cons_self _ _) c h
      · rcases List.mem_append.1 h with h | h
        · simp at h; omega
        · exact ih (fun x hx => hgs x (List.mem_cons_of_mem _ hx)) c h

/-- C9. An unresolvable segment invalidates the whole tag. For a tag body
`g_1+...+g_k` of valid segments (1 to 15 runes, no `+`, no `]`) without `[`,
one of which is neither a key of the registry nor a run of digits:
`parseOpening` at the start of `[~g_1+...+g_k]` fails and returns the index it
was given, and `Apply` on the tag followed by a text without `[` returns the
reset sequence followed by the tag and the text, unchanged: nothing is emitted
for the segments before the bad one and no trailing reset is appended. -/
theorem unresolvable_segment_invalidates_tag (named : Registry) (gs : List (List Int))
    (t : List Int)
    (hvalid : ∀ g ∈ gs, ValidSegment g ∧ ∀ c ∈ g, c ≠ 91)
    (hbad : ∃ g ∈ gs, Registry.get named (keyOf g) = none ∧ ¬ AllDigits g)
    (ht : ∀ c ∈ t, c ≠ 91) :
    (∀ pre post : List Int,
        parseOpening named (pre ++ (openingTag gs ++ post)) (pre.length : Int)
          = .ok (none, (pre.length : Int), false))
      ∧ Apply named (openingTag gs ++ t) = .ok (reset ++ (openingTag gs ++ t)) := by
  have hparse : ∀ pre post : List Int,
      parseOpening named (pre ++ (openingTag gs ++ post)) (pre.length : Int)
        = .ok (none, (pre.length : Int), false) := fun pre post =>
    parseOpening_invalid named _ pre post _ gs (fun g hg => (hvalid g hg).1) hbad rfl rfl
  refine ⟨hparse, ?_⟩
  have hlit : ∀ c ∈ 126 :: (List.intercalate [43] gs ++ [93]) ++ t, c ≠ 91 := by
    intro c hc
    rcases List.mem_append.1 hc with h | h
    · rcases List.mem_cons.1 h with h | h
      · omega
      · rcases List.mem_append.1 h with h | h
        · exact intercalate_no_bracket gs (fun g hg => (hvalid g hg).2) c h
        · simp at h; omega
    · exact ht c h
  have hr : openingTag gs ++ t = [] ++ 91 :: (126 :: (List.intercalate [43] gs ++ [93]) ++ t) := by
    rw [openingTag_eq_cons]; simp
  have h0 := hparse [] t
  simp only [List.nil_append, List.length_nil, Nat.cast_zero] at h0
  have hbracket := applyLoop_bracket named (openingTag gs ++ t) []
    (126 :: (List.intercalate [43] gs ++ [93]) ++ t) []
    ((126 :: (List.intercalate [43] gs ++ [93]) ++ t).length + 1) 0 0 reset hr rfl rfl (by simp)
    (fun _ => h0) (fun h => absurd h (by simp))
  have hrun := applyLoop_literal named (openingTag gs ++ t)
    (126 :: (List.intercalate [43] gs ++ [93]) ++ t) [91] [] 1 (0 + 1) 0 (stackOf [])
    (reset ++ [91]) (by rw [openingTag_eq_cons]; simp) (by simp) hlit
  have hlen : (openingTag gs ++ t).length + 1
      = ((126 :: (List.intercalate [43] gs ++ [93]) ++ t).length + 1) + 1 := by
    rw [openingTag_eq_cons]; simp
  apply Apply_of_scan_closed named _
    (0 + 1 + ((126 :: (List.intercalate [43] gs ++ [93]) ++ t).length : Int)) 0
  rw [applyScan, applyInit_eq, hlen, hbracket]
  have hfuel : (126 :: (List.intercalate [43] gs ++ [93]) ++ t).length + 1
      = 1 + (126 :: (List.intercalate [43] gs ++ [93]) ++ t).length := by omega
  rw [hfuel, hrun, applyLoop_done named _ 0 _ (by rw [openingTag_eq_cons]; simp; omega)]
  rw [openingTag_eq_cons]
  simp

/-- C9 with the built-in styles: `[~nope]x`, `[~bold+nope]x` and `[~Bold]x`
(names are case-sensitive) are copied unchanged after the leading reset. -/
theorem unresolvable_segment_invalidates_tag_witness :
    Apply NewStyler (runesOf "[~nope]x") = .ok (runesOf "\x1b[0m[~nope]x")
      ∧ Apply NewStyler (runesOf "[~bold+nope]x") = .ok (runesOf "\x1b[0m[~bold+nope]x")
      ∧ Apply NewStyler (runesOf "[~Bold]x") = .ok (runesOf "\x1b[0m[~Bold]x") :=
  ⟨(unresolvable_segment_invalidates_tag NewStyler [runesOf "nope"] (runesOf "x")
      (by decide) (by decide) (by decide)).2,
   (unresolvable_segment_invalidates_tag NewStyler [runesOf "bold", runesOf "nope"] (runesOf "x")
      (by decide) (by decide) (by decide)).2,
   (unresolvable_segment_invalidates_tag NewStyler [runesOf "Bold"] (runesOf "x")
      (by decide) (by decide) (by decide)).2⟩

/-! ## Opening tags one after the other, up to the depth limit -/

theorem length_le_flatMap_openingTag (opened : List (List Int × List Int)) :
    opened.length ≤ (opened.flatMap (fun s => openingTag [s.1])).length := by
  induction opened with
  | nil => simp
  | cons s rest ih =>
    have : 1 ≤ (openingTag [s.1]).length := by simp [openingTag, openingBegin]
    simp only [List.flatMap_cons, List.length_append, List.length_cons]
    omega

theorem applyLoop_opens (named : Registry) (runes : List Int) :
    ∀ (opened : List (List Int × List Int)),
      (∀ s ∈ opened, ValidSegment s.1 ∧ Registry.get named (keyOf s.1) = some s.2) →
      ∀ (pre post : List Int) (seqs : List (List Int)) (out : List Int) (fuel : Nat)
        (i nest : Int),
        runes = pre ++ (opened.flatMap (fun s => openingTag [s.1]) ++ post) →
        i = (pre.length : Int) → nest = (seqs.length : Int) →
        seqs.length + opened.length ≤ styleDepthMax →
        applyLoop named runes (fuel + opened.length)
            { i := i, nest := nest, appliedStyleStack := stackOf seqs, output := out }
          = applyLoop named runes fuel
            { i := i + ((opened.flatMap (fun s => openingTag [s.1])).length : Int),
              nest := nest + (opened.length : Int),
              appliedStyleStack := stackOf (seqs ++ opened.map (fun s => resolvedSequence [s.2])),
              output := out ++ opened.flatMap (fun s => resolvedSequence [s.2]) } := by
  intro opened
  induction opened with
  | nil =>
    intro _ pre post seqs out fuel i nest _ _ _ _
    simp
  | cons s rest ih =>
    intro hnames pre post seqs out fuel i nest hr hi hn hdepth
    obtain ⟨hvalid, hget⟩ := hnames s (List.mem_cons_self _ _)
    simp only [List.length_cons] at hdepth
    have hfuel : fuel + (s :: rest).length = (fuel + rest.length) + 1 := by simp; omega
    have hopen := applyLoop_open named runes pre
      (rest.flatMap (fun s => openingTag [s.1]) ++ post) [(s.1, s.2)] seqs
      (fuel + rest.length) i nest out (by simp)
      (by
        intro x hx
        simp only [List.mem_singleton] at hx
        subst hx
        exact ⟨hvalid, Or.inl hget⟩)
      (by rw [hr]; simp) hi hn (by omega)
    simp only [List.map_cons, List.map_nil] at hopen
    rw [hfuel, hopen]
    rw [ih (fun x hx => hnames x (List.mem_cons_of_mem _ hx)) (pre ++ openingTag [s.1]) post
      (seqs ++ [resolvedSequence [s.2]]) (out ++ resolvedSequence [s.2]) fuel
      (i + ((openingTag [s.1]).length : Int)) (nest + 1) (by rw [hr]; simp) (by rw [hi]; simp)
      (by rw [hn]; simp) (by simp; omega)]
    have e1 : i + ((openingTag [s.1]).length : Int)
          + ((rest.flatMap (fun s => openingTag [s.1])).length : Int)
        = i + (((s :: rest).flatMap (fun s => openingTag [s.1])).length : Int) := by
      simp; omega
    have e2 : nest + 1 + (rest.length : Int) = nest + ((s :: rest).length : Int) := by
      simp; omega
    rw [e1, e2]
    simp

/-- C6. Depth overflow. After five opening tags whose names are valid
segments registered with their bodies, a sixth opening tag (its name without
`[`, registered or not) followed by a text without `[` is copied rune for
rune: `Apply` returns the reset sequence, the five resolved sequences, the
sixth tag as written, the text, and the trailing reset. -/
theorem Apply_depth_overflow (named : Registry) (opened : List (List Int × List Int))
    (sixth t : List Int)
    (hlen : opened.length = styleDepthMax)
    (hnames : ∀ s ∈ opened, ValidSegment s.1 ∧ Registry.get named (keyOf s.1) = some s.2)
    (hsixth : ∀ c ∈ sixth, c ≠ 91) (ht : ∀ c ∈ t, c ≠ 91) :
    Apply named (opened.flatMap (fun s => openingTag [s.1]) ++ (openingTag [sixth] ++ t))
      = .ok (reset ++ (opened.flatMap (fun s => resolvedSequence [s.2])
          ++ (openingTag [sixth] ++ (t ++ reset)))) := by
  have htag : openingTag [sixth] = 91 :: (126 :: (sixth ++ [93])) := by
    rw [openingTag_eq_cons, intercalate_single]
  have hlit : ∀ c ∈ 126 :: (sixth ++ [93]) ++ t, c ≠ 91 := by
    intro c hc
    rcases List.mem_append.1 hc with h | h
    · rcases List.mem_cons.1 h with h | h
      · omega
      · rcases List.mem_append.1 h with h | h
        · exact hsixth c h
        · simp at h; omega
    · exact ht c h
  have hcount := length_le_flatMap_openingTag opened
  have hrunlen : (opened.flatMap (fun s => openingTag [s.1]) ++ (openingTag [sixth] ++ t)).length
      = (opened.flatMap (fun s => openingTag [s.1])).length + 1
          + (126 :: (sixth ++ [93]) ++ t).length := by
    rw [htag]; simp; omega
  obtain ⟨f, hf⟩ : ∃ f, (opened.flatMap (fun s => openingTag [s.1])
        ++ (openingTag [sixth] ++ t)).length + 1
      = (((f + 1) + (126 :: (sixth ++ [93]) ++ t).length) + 1) + opened.length :=
    ⟨(opened.flatMap (fun s => openingTag [s.1])).length - opened.length, by omega⟩
  have hopens := applyLoop_opens named
    (opened.flatMap (fun s => openingTag [s.1]) ++ (openingTag [sixth] ++ t)) opened hnames []
    (openingTag [sixth] ++ t) [] reset (((f + 1) + (126 :: (sixth ++ [93]) ++ t).length) + 1) 0 0
    (by simp) rfl rfl (by simp; omega)
  simp only [List.nil_append, Int.zero_add] at hopens
  have hbracket := applyLoop_bracket named
    (opened.flatMap (fun s => openingTag [s.1]) ++ (openingTag [sixth] ++ t))
    (opened.flatMap (fun s => openingTag [s.1])) (126 :: (sixth ++ [93]) ++ t)
    (opened.map (fun s => resolvedSequence [s.2]))
    ((f + 1) + (126 :: (sixth ++ [93]) ++ t).length)
    ((opened.flatMap (fun s => openingTag [s.1])).length : Int) (opened.length : Int)
    (reset ++ opened.flatMap (fun s => resolvedSequence [s.2]))
    (by rw [htag]; simp) rfl (by simp) (by simp; omega)
    (fun h => absurd h (by simp; omega))
    (fun _ => checkSequence_closing_fail _ (opened.flatMap (fun s => openingTag [s.1]))
      (126 :: (sixth ++ [93]) ++ t) _ (by rw [htag]; simp) rfl (by simp))
  have hrun := applyLoop_literal named
    (opened.flatMap (fun s => openingTag [s.1]) ++ (openingTag [sixth] ++ t))
    (126 :: (sixth ++ [93]) ++ t) (opened.flatMap (fun s => openingTag [s.1]) ++ [91]) []
    (f + 1) (((opened.flatMap (fun s => openingTag [s.1])).length : Int) + 1)
    (opened.length : Int) (stackOf (opened.map (fun s => resolvedSequence [s.2])))
    (reset ++ opened.flatMap (fun s => resolvedSequence [s.2]) ++ [91])
    (by rw [htag]; simp) (by simp) hlit
  have hdone := applyLoop_done named
    (opened.flatMap (fun s => openingTag [s.1]) ++ (openingTag [sixth] ++ t)) f
    { i := ((opened.flatMap (fun s => openingTag [s.1])).length : Int) + 1
        + ((126 :: (sixth ++ [93]) ++ t).length : Int),
      nest := (opened.length : Int),
      appliedStyleStack := stackOf (opened.map (fun s => resolvedSequence [s.2])),
      output := reset ++ opened.flatMap (fun s => resolvedSequence [s.2]) ++ [91]
        ++ (126 :: (sixth ++ [93]) ++ t) }
    (by rw [hrunlen]; push_cast; omega)
  have hscan : applyScan named
      (opened.flatMap (fun s => openingTag [s.1]) ++ (openingTag [sixth] ++ t))
      = .ok { i := ((opened.flatMap (fun s => openingTag [s.1])).length : Int) + 1
                + ((126 :: (sixth ++ [93]) ++ t).length : Int),
              nest := (opened.length : Int),
              appliedStyleStack := stackOf (opened.map (fun s => resolvedSequence [s.2])),
              output := reset ++ opened.flatMap (fun s => resolvedSequence [s.2]) ++ [91]
                ++ (126 :: (sixth ++ [93]) ++ t) } := by
    rw [applyScan, applyInit_eq, hf, hopens, hbracket, hrun, hdone]
  obtain ⟨s, rest, hcons⟩ : ∃ s rest, opened = s :: rest := by
    cases opened with
    | nil => simp [styleDepthMax] at hlen
    | cons s rest => exact ⟨s, rest, rfl⟩
  have hstack : stackOf (opened.map (fun s => resolvedSequence [s.2]))
      = stackOf (resolvedSequence [s.2] :: rest.map (fun s => resolvedSequence [s.2])) := by
    rw [hcons]; simp
  rw [hstack] at hscan
  rw [Apply_of_scan_open named _ _ _ _ _ _ hscan, htag]
  simp

/-- C6 with the built-in styles: six opening tags and a text. -/
theorem Apply_depth_overflow_witness :
    Apply NewStyler (runesOf "[~bold][~red][~italic][~blue][~faint][~green]text")
      = .ok (runesOf "\x1b[0m\x1b[1m\x1b[31m\x1b[3m\x1b[34m\x1b[2m[~green]text\x1b[0m") :=
  Apply_depth_overflow NewStyler
    [(runesOf "bold", runesOf "1"), (runesOf "red", runesOf "31"),
     (runesOf "italic", runesOf "3"), (runesOf "blue", runesOf "34"),
     (runesOf "faint", runesOf "2")]
    (runesOf "green") (runesOf "text") (by decide) (by decide) (by decide) (by decide)

/-! ## Inputs on which the code departs from its description -/

/-- C1. `Apply` is not total: on `[~` followed by 17 runes that are neither
`+` nor `]`, the 17th rune is written to `key[16]` of the 16-slot key array,
which is an index-out-of-range panic, whatever the registry holds. The length
check `count >= keySizeMax` is only reached at a separator or close marker. -/
theorem Apply_panics_on_long_segment (named : Registry) :
    parseOpening named (runesOf "[~aaaaaaaaaaaaaaaaa") 0 = .panic
      ∧ Apply named (runesOf "[~aaaaaaaaaaaaaaaaa") = .panic :=
  ⟨rfl, rfl⟩

/-- C4. On `[~bold][~red][~blue][/]` the scan ends at depth 2 with the root
slot cleared and the red sequence re-emitted after the reset: the output ends
with `ESC [ 3 1 m`, not with the reset sequence. -/
theorem Apply_final_close_leaves_style :
    applyScan NewStyler (runesOf "[~bold][~red][~blue][/]")
        = .ok { i := 23, nest := 2,
                appliedStyleStack := [none, some (runesOf "\x1b[31m"), none, none, none],
                output := runesOf "\x1b[0m\x1b[1m\x1b[31m\x1b[34m\x1b[0m\x1b[31m" }
      ∧ Apply NewStyler (runesOf "[~bold][~red][~blue][/]")
        = .ok (runesOf "\x1b[0m\x1b[1m\x1b[31m\x1b[34m\x1b[0m\x1b[31m") := by
  decide

/-- C7. An unterminated opening tag is reported as parsed: on `[~bold` the
scan loop of `parseOpening` runs off the end of the input and the function
returns `ESC [ m`, the index of `~` and success; `Apply` then emits that
sequence, copies `bold` and appends the trailing reset. -/
theorem parseOpening_unterminated_succeeds :
    parseOpening NewStyler (runesOf "[~bold") 0 = .ok (some (runesOf "\x1b[m"), 1, true)
      ∧ Apply NewStyler (runesOf "[~bold") = .ok (runesOf "\x1b[0m\x1b[mbold\x1b[0m") := by
  decide

/-- C10. The built-in name `bg-light-magenta` has 16 runes and is registered
with body `105`, but a segment of 16 runes fails the check
`count >= keySizeMax`: the tag is not parsed and the text is copied. -/
theorem Apply_rejects_sixteen_rune_name :
    Registry.get NewStyler (keyOf (runesOf "bg-light-magenta")) = some (runesOf "105")
      ∧ parseOpening NewStyler (runesOf "[~bg-light-magenta]x[/]") 0 = .ok (none, 0, false)
      ∧ Apply NewStyler (runesOf "[~bg-light-magenta]x[/]")
        = .ok (runesOf "\x1b[0m[~bg-light-magenta]x[/]") := by
  decide

/-! ## checkSequence as a prefix match -/

theorem take_drop_eq_iff (sequence runes : List Int) (n : Nat) :
    (runes.drop n).take sequence.length = sequence
      ↔ ∀ k : Nat, k < sequence.length → runes[n + k]? = sequence[k]? := by
  constructor
  · intro h k hk
    have h1 : ((runes.drop n).take sequence.length)[k]? = sequence[k]? := by rw [h]
    rw [List.getElem?_take_of_lt hk, List.getElem?_drop] at h1
    exact h1
  · intro h
    apply List.ext_getElem?
    intro k
    by_cases hk : k < sequence.length
    · rw [List.getElem?_take_of_lt hk, List.getElem?_drop]
      exact h k hk
    · rw [List.getElem?_take_eq_none (by omega), List.getElem?_eq_none (by omega)]

/-- C20. `checkSequence` is an exact, bounds-checked match of `sequence` at
`idx`. For every sequence, every rune slice and every index `idx ≥ 0`, with
"the sequence occurs at `idx`" meaning `idx + len(sequence) ≤ len(runes)` and
`runes[idx + k] = sequence[k]` for every `k < len(sequence)`: the function
returns `(idx + len(sequence) - 1, true)` exactly when the sequence occurs at
`idx`, and returns `(idx, false)` otherwise. In both cases it returns (no
read of `runes` is out of range), so a sequence that would extend past the end
of the input never matches. -/
theorem checkSequence_exact (sequence runes : List Int) (idx : Int) (hidx : 0 ≤ idx) :
    (checkSequence sequence runes idx = .ok (idx + (sequence.length : Int) - 1, true)
        ↔ (idx + (sequence.length : Int) ≤ (runes.length : Int)
            ∧ ∀ k : Nat, k < sequence.length → runeAt runes (idx + (k : Int)) = sequence[k]?))
      ∧ (¬ (idx + (sequence.length : Int) ≤ (runes.length : Int)
            ∧ ∀ k : Nat, k < sequence.length → runeAt runes (idx + (k : Int)) = sequence[k]?)
          → checkSequence sequence runes idx = .ok (idx, false)) := by
  obtain ⟨n, rfl⟩ := Int.eq_ofNat_of_zero_le hidx
  have hread : ∀ k : Nat, runeAt runes ((n : Int) + (k : Int)) = runes[n + k]? := by
    intro k
    exact runeAt_eq runes _ (n + k) (by push_cast; rfl)
  have hcond : (((n : Int) + (sequence.length : Int) ≤ (runes.length : Int))
        ∧ ∀ k : Nat, k < sequence.length → runeAt runes ((n : Int) + (k : Int)) = sequence[k]?)
      ↔ (n + sequence.length ≤ runes.length
        ∧ (runes.drop n).take sequence.length = sequence) := by
    rw [take_drop_eq_iff]
    constructor
    · rintro ⟨h1, h2⟩
      exact ⟨by omega, fun k hk => by rw [← hread]; exact h2 k hk⟩
    · rintro ⟨h1, h2⟩
      exact ⟨by omega, fun k hk => by rw [hread]; exact h2 k hk⟩
  rw [hcond, checkSequence_eq]
  by_cases hc : n + sequence.length ≤ runes.length
      ∧ (runes.drop n).take sequence.length = sequence
  · simp [hc]
  · simp [hc]

/-- C20 at the closing marker inside `ab[/]c` (index 2) and at the end of
`ab[/` (index 2), where the marker would pass the end of the input. -/
theorem checkSequence_exact_witness :
    ((checkSequence closing (runesOf "ab[/]c") 2 = .ok (2 + (closing.length : Int) - 1, true)
        ↔ ((2 : Int) + (closing.length : Int) ≤ ((runesOf "ab[/]c").length : Int)
            ∧ ∀ k : Nat, k < closing.length →
                runeAt (runesOf "ab[/]c") (2 + (k : Int)) = closing[k]?))
      ∧ (¬ ((2 : Int) + (closing.length : Int) ≤ ((runesOf "ab[/]c").length : Int)
            ∧ ∀ k : Nat, k < closing.length →
                runeAt (runesOf "ab[/]c") (2 + (k : Int)) = closing[k]?)
          → checkSequence closing (runesOf "ab[/]c") 2 = .ok (2, false)))
      ∧ checkSequence closing (runesOf "ab[/]c") 2 = .ok (4, true)
      ∧ checkSequence closing (runesOf "ab[/") 2 = .ok (2, false) :=
  ⟨checkSequence_exact closing (runesOf "ab[/]c") 2 (by decide), by decide, by decide⟩

/-! ## A closing tag at the end of the input -/

/-- The closing tag of the second scope, as the last thing in the input: only
the reset is emitted and the root slot is cleared as well. -/
theorem applyStep_close_final_two (named : Registry) (runes pre : List Int)
    (s0 s1 : List Int) (i : Int) (out : List Int)
    (hr : runes = pre ++ closing) (hi : i = (pre.length : Int)) :
    applyStep named runes
        { i := i, nest := 2, appliedStyleStack := stackOf ([s0] ++ [s1]), output := out }
      = .ok { i := i + 2, nest := 1, appliedStyleStack := stackOf [], output := out ++ reset } := by
  have hr2 : runes = pre ++ 91 :: (47 :: 93 :: []) := by rw [hr]; simp [closing]
  have hr3 : runes = pre ++ (closing ++ []) := by rw [hr]; simp
  have hread : runeAt runes i = some 91 := runeAt_append_cons runes pre _ 91 i hr2 hi
  have hparse := parseOpening_no_marker named runes pre _ i hr2 hi (by simp)
  have hset := slotSet_stackOf_none ([s0] ++ [s1]) 2 (by simp) (by simp [styleDepthMax])
  have hcs := checkSequence_match closing runes pre [] i hr3 hi
  have hi1 : (pre.length : Int) + (closing.length : Int) - 1 = i + 2 := by
    simp [closing]; omega
  rw [hi1] at hcs
  have hpop := slotSet_stackOf_pop [s0] s1 1 (by simp) (by simp [styleDepthMax])
  have hroot := slotSet_stackOf_pop [] s0 0 (by simp) (by simp [styleDepthMax])
  simp only [List.nil_append] at hroot
  have hend : i + 2 + 1 = (runes.length : Int) := by rw [hr, hi]; simp [closing]; omega
  have hrestore : restoreLoop 1 (stackOf []) 0 (out ++ reset) = out ++ reset := by
    simp [stackOf, styleDepthMax, List.replicate_succ, restoreLoop, sliceRunes]
  have h25 : (2 : Int) < (styleDepthMax : Int) := by simp [styleDepthMax]
  have h20 : (2 : Int) > 0 := by omega
  have h21 : (2 : Int) - 1 = 1 := by omega
  have h10 : (1 : Int) ≥ 0 := by omega
  simp only [applyStep, hread, h25, and_self, if_true, hparse, hset, Bool.false_eq_true, if_false,
    applyClosing, h20, hcs, h21, h10, hpop, hend, hroot, hrestore]

/-- C13. De-duplication of the trailing reset. For names `a`, `b` that are
valid segments (1 to 15 runes, no `+`, no `]`) registered with the bodies `ba`
and `bb`, and texts `t1`, `t2` without `[`, `Apply` on
`[~a] t1 [~b] t2 [/]` returns the reset, `ESC [ ba m`, `t1`, `ESC [ bb m`,
`t2` and one reset: the closing tag is the last thing in the input, the
sequence of the outer scope is not emitted again and no second reset is
appended. -/
theorem Apply_deduplicates_final_reset (named : Registry) (a ba b bb t1 t2 : List Int)
    (ha : ValidSegment a ∧ Registry.get named (keyOf a) = some ba)
    (hb : ValidSegment b ∧ Registry.get named (keyOf b) = some bb)
    (ht1 : ∀ c ∈ t1, c ≠ 91) (ht2 : ∀ c ∈ t2, c ≠ 91) :
    Apply named (openingTag [a] ++ (t1 ++ (openingTag [b] ++ (t2 ++ closing))))
      = .ok (reset ++ (resolvedSequence [ba] ++ (t1 ++ (resolvedSequence [bb]
          ++ (t2 ++ reset))))) := by
  have hla : 1 ≤ (openingTag [a]).length := by simp [openingTag, openingBegin]
  have hlb : 1 ≤ (openingTag [b]).length := by simp [openingTag, openingBegin]
  obtain ⟨f, hf⟩ : ∃ f, (openingTag [a] ++ (t1 ++ (openingTag [b] ++ (t2 ++ closing)))).length + 1
      = ((((f + 1) + 1) + t2.length) + 1) + t1.length + 1 :=
    ⟨(openingTag [a]).length + (openingTag [b]).length + 3 - 3, by simp [closing]; omega⟩
  have hopen1 := applyLoop_open named
    (openingTag [a] ++ (t1 ++ (openingTag [b] ++ (t2 ++ closing)))) []
    (t1 ++ (openingTag [b] ++ (t2 ++ closing))) [(a, ba)] []
    (((((f + 1) + 1) + t2.length) + 1) + t1.length) 0 0 reset (by simp)
    (by
      intro x hx
      simp only [List.mem_singleton] at hx
      subst hx
      exact ⟨ha.1, Or.inl ha.2⟩)
    (by simp) rfl rfl (by simp [styleDepthMax])
  simp only [List.map_cons, List.map_nil, List.nil_append, Int.zero_add] at hopen1
  have hrun1 := applyLoop_literal named
    (openingTag [a] ++ (t1 ++ (openingTag [b] ++ (t2 ++ closing)))) t1 (openingTag [a])
    (openingTag [b] ++ (t2 ++ closing)) ((((f + 1) + 1) + t2.length) + 1)
    ((openingTag [a]).length : Int) 1 (stackOf [resolvedSequence [ba]])
    (reset ++ resolvedSequence [ba]) rfl rfl ht1
  have hopen2 := applyLoop_open named
    (openingTag [a] ++ (t1 ++ (openingTag [b] ++ (t2 ++ closing)))) (openingTag [a] ++ t1)
    (t2 ++ closing) [(b, bb)] [resolvedSequence [ba]]
    (((f + 1) + 1) + t2.length) (((openingTag [a]).length : Int) + (t1.length : Int)) 1
    (reset ++ resolvedSequence [ba] ++ t1) (by simp)
    (by
      intro x hx
      simp only [List.mem_singleton] at hx
      subst hx
      exact ⟨hb.1, Or.inl hb.2⟩)
    (by simp) (by simp) (by simp) (by simp [styleDepthMax])
  simp only [List.map_cons, List.map_nil] at hopen2
  have hrun2 := applyLoop_literal named
    (openingTag [a] ++ (t1 ++ (openingTag [b] ++ (t2 ++ closing)))) t2
    (openingTag [a] ++ t1 ++ openingTag [b]) closing ((f + 1) + 1)
    (((openingTag [a]).length : Int) + (t1.length : Int) + ((openingTag [b]).length : Int))
    (1 + 1) (stackOf ([resolvedSequence [ba]] ++ [resolvedSequence [bb]]))
    (reset ++ resolvedSequence [ba] ++ t1 ++ resolvedSequence [bb]) (by simp)
    (by simp [Int.add_assoc]) ht2
  have hstep := applyStep_close_final_two named
    (openingTag [a] ++ (t1 ++ (openingTag [b] ++ (t2 ++ closing))))
    (openingTag [a] ++ t1 ++ openingTag [b] ++ t2) (resolvedSequence [ba])
    (resolvedSequence [bb])
    (((openingTag [a]).length : Int) + (t1.length : Int) + ((openingTag [b]).length : Int)
      + (t2.length : Int))
    (reset ++ resolvedSequence [ba] ++ t1 ++ resolvedSequence [bb] ++ t2) (by simp)
    (by simp [Int.add_assoc])
  have h11 : (1 : Int) + 1 = 2 := by omega
  rw [h11] at hopen2 hrun2
  have hclose := applyLoop_step named
    (openingTag [a] ++ (t1 ++ (openingTag [b] ++ (t2 ++ closing)))) (f + 1) _ _
    (by simp [closing]; omega) hstep
  have hdone := applyLoop_done named
    (openingTag [a] ++ (t1 ++ (openingTag [b] ++ (t2 ++ closing)))) f
    { i := ((openingTag [a]).length : Int) + (t1.length : Int) + ((openingTag [b]).length : Int)
        + (t2.length : Int) + 2 + 1,
      nest := 1, appliedStyleStack := stackOf [],
      output := reset ++ resolvedSequence [ba] ++ t1 ++ resolvedSequence [bb] ++ t2 ++ reset }
    (by simp [closing]; omega)
  apply Apply_of_scan_closed named _
    (((openingTag [a]).length : Int) + (t1.length : Int) + ((openingTag [b]).length : Int)
        + (t2.length : Int) + 2 + 1) 1
  rw [applyScan, applyInit_eq, hf, hopen1, hrun1, hopen2, hrun2, hclose, hdone]
  simp

/-- C13 on the text of the test table, with the built-in styles:
`[~bold]nested and [~red]red[/]`. -/
theorem Apply_deduplicates_final_reset_witness :
    Apply NewStyler (runesOf "[~bold]nested and [~red]red[/]")
      = .ok (runesOf "\x1b[0m\x1b[1mnested and \x1b[31mred\x1b[0m") :=
  Apply_deduplicates_final_reset NewStyler (runesOf "bold") (runesOf "1") (runesOf "red")
    (runesOf "31") (runesOf "nested and ") (runesOf "red") (by decide) (by decide) (by decide)
    (by decide)

/-! ## Tags with an empty segment -/

theorem parseOpeningLoop_empty (named : Registry) (runes : List Int) (idx after : Int)
    (pre post sequence key : List Int) (first numeric : Bool) (fuel : Nat) (i d : Int)
    (hd : d = 43 ∨ d = 93) (hr : runes = pre ++ d :: post) (hi : i = (pre.length : Int)) :
    parseOpeningLoop named runes idx after (fuel + 1) i 0 sequence first numeric key
      = .ok (none, idx, false) := by
  have hlt : i < (runes.length : Int) := by rw [hr, hi]; simp
  have hread : runeAt runes i = some d := runeAt_append_cons runes pre post d i hr hi
  rcases hd with hd | hd <;> subst hd <;> simp [parseOpeningLoop, hlt, hread]

/-- The scan loop of `parseOpening`, entered at the first rune of a segment,
fails when the body up to the close marker is empty or holds an empty segment. -/
theorem parseOpeningLoop_empty_segment (named : Registry) (runes : List Int) (idx after : Int) :
    ∀ (gs : List (List Int)),
      (∀ g ∈ gs, g.length ≤ 15 ∧ ∀ c ∈ g, c ≠ 43 ∧ c ≠ 93) →
      (gs = [] ∨ [] ∈ gs) →
      ∀ (pre post sequence : List Int) (first : Bool) (fuel : Nat) (i : Int),
        runes = pre ++ (List.intercalate [43] gs ++ 93 :: post) →
        i = (pre.length : Int) →
        (List.intercalate [43] gs).length < fuel →
        parseOpeningLoop named runes idx after fuel i 0 sequence first true emptyKey
          = .ok (none, idx, false) := by
  intro gs
  induction gs with
  | nil =>
    intro _ _ pre post sequence first fuel i hr hi hfuel
    obtain ⟨f, rfl⟩ : ∃ f, fuel = f + 1 := ⟨fuel - 1, by omega⟩
    exact parseOpeningLoop_empty named runes idx after pre post sequence emptyKey first true f i
      93 (Or.inr rfl) (by rw [hr]; simp [List.intercalate]) hi
  | cons g rest ih =>
    intro hsegs hempty pre post sequence first fuel i hr hi hfuel
    obtain ⟨hg2, hgc⟩ := hsegs g (List.mem_cons_self _ _)
    have hsplit : (List.intercalate [43] (g :: rest) ++ 93 :: post)
        = g ++ ((if rest = [] then 93 else 43)
            :: (if rest = [] then post else List.intercalate [43] rest ++ 93 :: post)) := by
      cases rest with
      | nil => simp [intercalate_single]
      | cons g2 rest2 => simp [intercalate_cons_cons]
    have hlen : g.length < fuel := by
      have : g.length ≤ (List.intercalate [43] (g :: rest)).length := by
        cases rest with
        | nil => simp [intercalate_single]
        | cons g2 rest2 => simp [intercalate_cons_cons]
      omega
    rw [hsplit] at hr
    by_cases hg : g = []
    · subst hg
      obtain ⟨f, rfl⟩ : ∃ f, fuel = f + 1 := ⟨fuel - 1, by omega⟩
      exact parseOpeningLoop_empty named runes idx after pre
        (if rest = [] then post else List.intercalate [43] rest ++ 93 :: post) sequence emptyKey
        first true f i (if rest = [] then 93 else 43)
        (by by_cases h : rest = [] <;> simp [h]) (by rw [hr]; simp) hi
    · have hg1 : 1 ≤ g.length := by
        cases g with
        | nil => exact absurd rfl hg
        | cons c g => simp
      have hmem : [] ∈ rest := by
        rcases hempty with h | h
        · exact absurd h (by simp)
        · rcases List.mem_cons.1 h with h | h
          · exact absurd h.symm hg
          · exact h
      have hrest : rest ≠ [] := by
        intro h; subst h
        exact absurd hmem (List.not_mem_nil _)
      simp only [hrest, if_false] at hr
      obtain ⟨f, rfl⟩ : ∃ f, fuel = (f + 1) + g.length := ⟨fuel - g.length - 1, by omega⟩
      have hchars := parseOpeningLoop_chars named runes idx after g pre _ [] (f + 1) i 0
        sequence first true hr hi (by simp) hgc (by simp [keySizeMax]; omega)
      rw [keyOf_nil] at hchars
      rw [hchars]
      simp only [List.nil_append, Bool.true_and]
      by_cases hthis : Registry.get named (keyOf g) = none ∧ ¬ AllDigits g
      · have hnum : g.all (fun c => decide (48 ≤ c ∧ c ≤ 57)) = false := by
          have := (allDigits_iff g).not.2 hthis.2
          simpa using this
        rw [hnum]
        exact parseOpeningLoop_unresolved named runes idx after g (pre ++ g)
          (List.intercalate [43] rest ++ 93 :: post) sequence first f
          (i + (g.length : Int)) (0 + (g.length : Int)) 43 (Or.inl rfl)
          (by rw [hr]; simp) (by rw [hi]; simp) (by simp) hg1 hg2 hthis.1
      · have hres : Registry.get named (keyOf g) = some ((Registry.get named (keyOf g)).getD g)
            ∨ (Registry.get named (keyOf g) = none
                ∧ g.all (fun c => decide (48 ≤ c ∧ c ≤ 57)) = true
                ∧ (Registry.get named (keyOf g)).getD g = g) := by
          cases hget : Registry.get named (keyOf g) with
          | some b => exact Or.inl (by simp)
          | none =>
            refine Or.inr ⟨rfl, ?_, by simp⟩
            have hd : AllDigits g := by
              by_contra hnd
              exact hthis ⟨hget, hnd⟩
            exact (allDigits_iff g).2 hd
        have hplus := parseOpeningLoop_plus named runes idx after g
          ((Registry.get named (keyOf g)).getD g) (pre ++ g)
          (List.intercalate [43] rest ++ 93 :: post) sequence first
          (g.all (fun c => decide (48 ≤ c ∧ c ≤ 57))) f (i + (g.length : Int))
          (0 + (g.length : Int)) (by rw [hr]; simp) (by rw [hi]; simp) (by simp) hg1 hg2 hres
        rw [hplus]
        have hfuel2 : (List.intercalate [43] rest).length < f := by
          cases rest with
          | nil => exact absurd rfl hrest
          | cons g2 rest2 =>
            simp only [intercalate_cons_cons, List.length_append, List.length_cons,
              List.length_nil] at hfuel
            omega
        exact ih (fun x hx => hsegs x (List.mem_cons_of_mem _ hx)) (Or.inr hmem)
          (pre ++ g ++ [43]) post _ false f (i + (g.length : Int) + 1)
          (by rw [hr]; simp) (by rw [hi]; simp [Int.add_assoc]) hfuel2

/-- A `[` at the start of the input that `parseOpening` does not accept,
followed by runes without `[`: `Apply` copies the whole input. -/
theorem Apply_copies_unparsed (named : Registry) (rest : List Int)
    (hparse : parseOpening named (91 :: rest) 0 = .ok (none, 0, false))
    (hrest : ∀ c ∈ rest, c ≠ 91) :
    Apply named (91 :: rest) = .ok (reset ++ 91 :: rest) := by
  have hbracket := applyLoop_bracket named (91 :: rest) [] rest [] (rest.length + 1) 0 0 reset
    rfl rfl rfl (by simp) (fun _ => hparse) (fun h => absurd h (by simp))
  have hrun := applyLoop_literal named (91 :: rest) rest [91] [] 1 (0 + 1) 0 (stackOf [])
    (reset ++ [91]) (by simp) (by simp) hrest
  have hlen : (91 :: rest).length + 1 = (rest.length + 1) + 1 := by simp
  have hfuel : rest.length + 1 = 1 + rest.length := by omega
  apply Apply_of_scan_closed named _ (0 + 1 + (rest.length : Int)) 0
  rw [applyScan, applyInit_eq, hlen, hbracket, hfuel, hrun,
    applyLoop_done named _ 0 _ (by simp; omega)]
  simp

/-- C15. Empty segments invalidate the tag. For a tag body `g_1+...+g_k` that
has no segment at all or holds an empty segment, every segment of at most 15
runes without `+`, `]` and `[`: `parseOpening` at the start of the tag fails
and returns the index it was given, and `Apply` on the tag followed by a text
without `[` returns the reset sequence followed by the tag and the text,
unchanged: nothing is emitted for the segments before the empty one and no
trailing reset is appended. -/
theorem empty_segment_invalidates_tag (named : Registry) (gs : List (List Int)) (t : List Int)
    (hsegs : ∀ g ∈ gs, g.length ≤ 15 ∧ ∀ c ∈ g, c ≠ 43 ∧ c ≠ 93 ∧ c ≠ 91)
    (hempty : gs = [] ∨ [] ∈ gs)
    (ht : ∀ c ∈ t, c ≠ 91) :
    (∀ pre post : List Int,
        parseOpening named (pre ++ (openingTag gs ++ post)) (pre.length : Int)
          = .ok (none, (pre.length : Int), false))
      ∧ Apply named (openingTag gs ++ t) = .ok (reset ++ (openingTag gs ++ t)) := by
  have hparse : ∀ pre post : List Int,
      parseOpening named (pre ++ (openingTag gs ++ post)) (pre.length : Int)
        = .ok (none, (pre.length : Int), false) := by
    intro pre post
    have hr2 : pre ++ (openingTag gs ++ post)
        = pre ++ (openingBegin ++ (List.intercalate [43] gs ++ 93 :: post)) := by
      simp [openingTag, openingClose]
    have hbegin := checkSequence_match openingBegin _ pre _ (pre.length : Int) hr2 rfl
    have hloop := parseOpeningLoop_empty_segment named (pre ++ (openingTag gs ++ post))
      (pre.length : Int) ((pre.length : Int) + (openingBegin.length : Int) - 1) gs
      (fun g hg => ⟨(hsegs g hg).1, fun c hc => ⟨((hsegs g hg).2 c hc).1, ((hsegs g hg).2 c hc).2.1⟩⟩)
      hempty (pre ++ openingBegin) post [27, 91] true ((pre ++ (openingTag gs ++ post)).length + 1)
      ((pre.length : Int) + (openingBegin.length : Int) - 1 + 1)
      (by rw [hr2]; simp) (by simp [openingBegin])
      (by rw [hr2]; simp; omega)
    simp only [parseOpening, hbegin, hloop]
  refine ⟨hparse, ?_⟩
  have hlit : ∀ c ∈ 126 :: (List.intercalate [43] gs ++ [93]) ++ t, c ≠ 91 := by
    intro c hc
    rcases List.mem_append.1 hc with h | h
    · rcases List.mem_cons.1 h with h | h
      · omega
      · rcases List.mem_append.1 h with h | h
        · exact intercalate_no_bracket gs (fun g hg c hc => ((hsegs g hg).2 c hc).2.2) c h
        · simp at h; omega
    · exact ht c h
  have h0 := hparse [] t
  simp only [List.nil_append, List.length_nil, Nat.cast_zero] at h0
  have hshape : openingTag gs ++ t = 91 :: (126 :: (List.intercalate [43] gs ++ [93]) ++ t) := by
    rw [openingTag_eq_cons]; simp
  rw [hshape] at h0 ⊢
  exact Apply_copies_unparsed named _ h0 hlit

/-- C15 with the built-in styles: `[~]x`, `[~+bold]x`, `[~bold+]x` and
`[~bold++red]x` are copied unchanged after the leading reset. -/
theorem empty_segment_invalidates_tag_witness :
    Apply NewStyler (runesOf "[~]x") = .ok (runesOf "\x1b[0m[~]x")
      ∧ Apply NewStyler (runesOf "[~+bold]x") = .ok (runesOf "\x1b[0m[~+bold]x")
      ∧ Apply NewStyler (runesOf "[~bold+]x") = .ok (runesOf "\x1b[0m[~bold+]x")
      ∧ Apply NewStyler (runesOf "[~bold++red]x") = .ok (runesOf "\x1b[0m[~bold++red]x") :=
  ⟨(empty_segment_invalidates_tag NewStyler [] (runesOf "x")
      (by decide) (by decide) (by decide)).2,
   (empty_segment_invalidates_tag NewStyler [[], runesOf "bold"] (runesOf "x")
      (by decide) (by decide) (by decide)).2,
   (empty_segment_invalidates_tag NewStyler [runesOf "bold", []] (runesOf "x")
      (by decide) (by decide) (by decide)).2,
   (empty_segment_invalidates_tag NewStyler [runesOf "bold", [], runesOf "red"] (runesOf "x")
      (by decide) (by decide) (by decide)).2⟩

/-! ## Restart after a failed parse -/

/-- C19. Restart after a failed tag parse. Let `n` be a valid segment (1 to 15
runes, no `+`, no `]`) registered with body `b`, `x` a junk text without `[`,
`+` and `]` with `len(x) + 2 + len(n) ≤ 15`, such that the segment `x[~n` is
no key of the registry, and `t` a text without `[`. Then `Apply` on
`[~ x [~n] t [/]` returns the reset, `[~`, `x`, `ESC [ b m`, `t` and the
reset: the first marker is copied as a single rune and the scan resumes at the
next rune, so the tag that begins inside the failed one is still parsed. -/
theorem Apply_restarts_after_failed_parse (named : Registry) (n b x t : List Int)
    (hn : ValidSegment n ∧ Registry.get named (keyOf n) = some b)
    (hx : ∀ c ∈ x, c ≠ 91 ∧ c ≠ 43 ∧ c ≠ 93)
    (hlen : x.length + 2 + n.length ≤ 15)
    (hkey : Registry.get named (keyOf (x ++ (openingBegin ++ n))) = none)
    (ht : ∀ c ∈ t, c ≠ 91) :
    Apply named (openingBegin ++ (x ++ (openingTag [n] ++ (t ++ closing))))
      = .ok (reset ++ (openingBegin ++ (x ++ (resolvedSequence [b] ++ (t ++ reset))))) := by
  have hshape : openingBegin ++ (x ++ (openingTag [n] ++ (t ++ closing)))
      = [] ++ (openingTag [x ++ (openingBegin ++ n)] ++ (t ++ closing)) := by
    simp [openingTag, intercalate_single]
  have hvalid : ∀ g ∈ [x ++ (openingBegin ++ n)], ValidSegment g := by
    intro g hg
    simp only [List.mem_singleton] at hg
    subst hg
    refine ⟨by simp [openingBegin]; omega, by simp [openingBegin]; omega, ?_⟩
    intro c hc
    rcases List.mem_append.1 hc with h | h
    · exact ⟨(hx c h).2.1, (hx c h).2.2⟩
    · rcases List.mem_append.1 h with h | h
      · simp [openingBegin] at h
        rcases h with h | h <;> subst h <;> decide
      · exact hn.1.2.2 c h
  have hbad : ∃ g ∈ [x ++ (openingBegin ++ n)],
      Registry.get named (keyOf g) = none ∧ ¬ AllDigits g := by
    refine ⟨_, List.mem_singleton.2 rfl, hkey, ?_⟩
    intro hd
    have := hd 91 (by simp [openingBegin])
    omega
  have hparse := parseOpening_invalid named
    (openingBegin ++ (x ++ (openingTag [n] ++ (t ++ closing)))) [] (t ++ closing) 0
    [x ++ (openingBegin ++ n)] hvalid hbad hshape rfl
  have hlit : ∀ c ∈ 126 :: x, c ≠ 91 := by
    intro c hc
    rcases List.mem_cons.1 hc with h | h
    · omega
    · exact (hx c h).1
  have hla : 1 ≤ (openingTag [n]).length := by simp [openingTag, openingBegin]
  obtain ⟨f, hf⟩ : ∃ f, (openingBegin ++ (x ++ (openingTag [n] ++ (t ++ closing)))).length + 1
      = (((((f + 1) + 1) + t.length) + 1) + (126 :: x).length) + 1 :=
    ⟨(openingTag [n]).length + 1, by
      simp only [List.length_append, List.length_cons, List.length_nil, openingBegin, closing]
      omega⟩
  have hbracket := applyLoop_bracket named
    (openingBegin ++ (x ++ (openingTag [n] ++ (t ++ closing)))) []
    (126 :: (x ++ (openingTag [n] ++ (t ++ closing)))) []
    (((((f + 1) + 1) + t.length) + 1) + (126 :: x).length) 0 0 reset
    (by simp [openingBegin]) rfl rfl (by simp) (fun _ => hparse) (fun h => absurd h (by simp))
  have hrun1 := applyLoop_literal named
    (openingBegin ++ (x ++ (openingTag [n] ++ (t ++ closing)))) (126 :: x) [91]
    (openingTag [n] ++ (t ++ closing)) ((((f + 1) + 1) + t.length) + 1) (0 + 1) 0 (stackOf [])
    (reset ++ [91]) (by simp [openingBegin]) (by simp) hlit
  have hopen := applyLoop_open named
    (openingBegin ++ (x ++ (openingTag [n] ++ (t ++ closing)))) (openingBegin ++ x)
    (t ++ closing) [(n, b)] [] (((f + 1) + 1) + t.length)
    (0 + 1 + ((126 :: x).length : Int)) 0 (reset ++ [91] ++ 126 :: x) (by simp)
    (by
      intro s hs
      simp only [List.mem_singleton] at hs
      subst hs
      exact ⟨hn.1, Or.inl hn.2⟩)
    (by simp) (by simp [openingBegin]; omega) rfl (by simp [styleDepthMax])
  simp only [List.map_cons, List.map_nil] at hopen
  have hrun2 := applyLoop_literal named
    (openingBegin ++ (x ++ (openingTag [n] ++ (t ++ closing)))) t
    (openingBegin ++ x ++ openingTag [n]) closing ((f + 1) + 1)
    (0 + 1 + ((126 :: x).length : Int) + ((openingTag [n]).length : Int)) (0 + 1)
    (stackOf ([] ++ [resolvedSequence [b]])) (reset ++ [91] ++ 126 :: x ++ resolvedSequence [b])
    (by simp) (by simp [openingBegin]; omega) ht
  have hclose := applyLoop_close named
    (openingBegin ++ (x ++ (openingTag [n] ++ (t ++ closing))))
    (openingBegin ++ x ++ openingTag [n] ++ t) [] [] (resolvedSequence [b]) (f + 1)
    (0 + 1 + ((126 :: x).length : Int) + ((openingTag [n]).length : Int) + (t.length : Int))
    (0 + 1) (reset ++ [91] ++ 126 :: x ++ resolvedSequence [b] ++ t)
    (by simp) (by simp [openingBegin]; omega) (by simp) (by simp [styleDepthMax]) (Or.inr rfl)
  have hdone := applyLoop_done named
    (openingBegin ++ (x ++ (openingTag [n] ++ (t ++ closing)))) f
    { i := 0 + 1 + ((126 :: x).length : Int) + ((openingTag [n]).length : Int)
        + (t.length : Int) + 3,
      nest := 0 + 1 - 1, appliedStyleStack := stackOf [],
      output := reset ++ [91] ++ 126 :: x ++ resolvedSequence [b] ++ t ++ reset
        ++ ([] : List (List Int)).flatten }
    (by simp [openingBegin, closing]; omega)
  apply Apply_of_scan_closed named _
    (0 + 1 + ((126 :: x).length : Int) + ((openingTag [n]).length : Int)
        + (t.length : Int) + 3) (0 + 1 - 1)
  rw [applyScan, applyInit_eq, hf, hbracket, hrun1, hopen, hrun2, hclose, hdone]
  simp [openingBegin]

/-- C19 with the built-in styles: in `[~x[~bold]y[/]` the text `[~x` is copied
and the tag `[~bold]` inside the failed one is parsed. -/
theorem Apply_restarts_after_failed_parse_witness :
    Apply NewStyler (runesOf "[~x[~bold]y[/]") = .ok (runesOf "\x1b[0m[~x\x1b[1my\x1b[0m") :=
  Apply_restarts_after_failed_parse NewStyler (runesOf "bold") (runesOf "1") (runesOf "x")
    (runesOf "y") (by decide) (by decide) (by decide) (by decide) (by decide)

/-! ## The opening marker of the tests -/

/-- C12. The opening marker of the code is `[~`, not the `[!` of the tests: on
the input of the test `Simple`, `[!bold]bolded text[/]`, no tag is parsed and
`Apply` returns the reset followed by the input as written, where the test
expects `ESC[0m ESC[1m bolded text ESC[0m`. -/
theorem Apply_copies_bang_marker :
    Apply NewStyler (runesOf "[!bold]bolded text[/]")
      = .ok (runesOf "\x1b[0m[!bold]bolded text[/]") := by
  decide

/-! ## The built-in palette -/

theorem registry_mem_of_get (named : Registry) (key body : List Int) :
    Registry.get named key = some body → (key, body) ∈ named := by
  induction named with
  | nil => intro h; simp [Registry.get] at h
  | cons e rest ih =>
    obtain ⟨k, v⟩ := e
    intro h
    by_cases hk : k = key
    · simp [Registry.get, hk] at h
      simp [hk, h]
    · simp [Registry.get, hk] at h
      exact List.mem_cons_of_mem _ (ih h)

theorem NewStyler_eq_paletteTable :
    NewStyler = paletteTable.map (fun p => (keyOf (runesOf p.1), runesOf p.2)) := by
  decide

theorem keyOf_eq_padded (a b : List Int) (hb : b.length ≤ keySizeMax) (hzero : ∀ c ∈ b, c ≠ 0)
    (h : keyOf a = keyOf b) : ∃ k : Nat, a = b ++ List.replicate k 0 := by
  have hlenb : (keyOf b).length = keySizeMax := keyOf_length b hb
  have hlena : a.length ≤ keySizeMax := by
    have h1 : (keyOf a).length = keySizeMax := by rw [h]; exact hlenb
    simp only [keyOf, List.length_append, List.length_replicate] at h1
    omega
  by_cases hab : b.length ≤ a.length
  · refine ⟨a.length - b.length, ?_⟩
    apply List.ext_getElem?
    intro j
    have hj : (keyOf a)[j]? = (keyOf b)[j]? := by rw [h]
    by_cases hja : j < a.length
    · have h1 : (keyOf a)[j]? = a[j]? := by
        simp only [keyOf]
        exact List.getElem?_append_left hja
      rw [← h1, hj]
      by_cases hjb : j < b.length
      · simp only [keyOf]
        rw [List.getElem?_append_left hjb, List.getElem?_append_left hjb]
      · simp only [keyOf]
        rw [List.getElem?_append_right (by omega), List.getElem?_append_right (by omega),
          List.getElem?_replicate, List.getElem?_replicate]
        have c1 : j - b.length < keySizeMax - b.length := by omega
        have c2 : j - b.length < a.length - b.length := by omega
        simp [c1, c2]
    · rw [List.getElem?_eq_none (by omega), List.getElem?_eq_none (by simp; omega)]
  · exfalso
    have hlt : a.length < b.length := by omega
    have hj : (keyOf a)[a.length]? = (keyOf b)[a.length]? := by rw [h]
    have h1 : (keyOf a)[a.length]? = some 0 := by
      simp only [keyOf]
      rw [List.getElem?_append_right (Nat.le_refl _), List.getElem?_replicate]
      have c1 : a.length < keySizeMax := by omega
      simp [c1]
    have h2 : (keyOf b)[a.length]? = some (b[a.length]) := by
      simp only [keyOf]
      rw [List.getElem?_append_left hlt]
      exact List.getElem?_eq_getElem hlt
    rw [h1, h2] at hj
    have hmem : b[a.length] ∈ b := List.getElem_mem hlt
    have := hzero _ hmem
    simp only [Option.some.injEq] at hj
    exact this hj.symm

theorem paletteTable_names :
    ∀ p ∈ paletteTable, (runesOf p.1).length ≤ keySizeMax ∧ ∀ c ∈ runesOf p.1, c ≠ 0 := by
  decide

theorem NewStyler_resolves_listed_key (key body : List Int)
    (h : Registry.get NewStyler key = some body) :
    ∃ p ∈ paletteTable, key = keyOf (runesOf p.1) ∧ body = runesOf p.2 := by
  have hmem := registry_mem_of_get NewStyler key body h
  rw [NewStyler_eq_paletteTable] at hmem
  obtain ⟨p, hp, hpair⟩ := List.mem_map.1 hmem
  exact ⟨p, hp, (congrArg Prod.fst hpair).symm, (congrArg Prod.snd hpair).symm⟩

/-- C14, as amended. Built-in palette. The registry of `NewStyler` has exactly
42 entries; the specification lists 42 names; the lookup of the zero-padded
key of each listed name returns its listed body; no other key resolves:
whatever key the registry resolves is the key of a listed name, with the
listed body; and the only names that resolve are the listed names and a listed
name followed by `U+0000` runes, each with the listed body. -/
theorem NewStyler_palette :
    NewStyler.length = 42
      ∧ paletteTable.length = 42
      ∧ (∀ p ∈ paletteTable,
          Registry.get NewStyler (keyOf (runesOf p.1)) = some (runesOf p.2))
      ∧ (∀ key body : List Int, Registry.get NewStyler key = some body →
          ∃ p ∈ paletteTable, key = keyOf (runesOf p.1) ∧ body = runesOf p.2)
      ∧ (∀ name body : List Int, Registry.get NewStyler (keyOf name) = some body →
          ∃ p ∈ paletteTable, ∃ k : Nat,
            name = runesOf p.1 ++ List.replicate k 0 ∧ body = runesOf p.2) := by
  refine ⟨by decide, by decide, by decide, NewStyler_resolves_listed_key, ?_⟩
  intro name body h
  obtain ⟨p, hp, hkey, hbody⟩ := NewStyler_resolves_listed_key (keyOf name) body h
  obtain ⟨hlen, hzero⟩ := paletteTable_names p hp
  obtain ⟨k, hk⟩ := keyOf_eq_padded name (runesOf p.1) hlen hzero hkey
  exact ⟨p, hp, k, hk, hbody⟩

/-- C14 as first stated fails: the name `bold` followed by `U+0000` is not
one of the listed names, yet its zero-padded key is the key of `bold`, so the
registry of `NewStyler` resolves it to the body `1` and `Apply` renders the
tag `[~bold\0]` as bold. -/
theorem NewStyler_unlisted_name_resolves :
    (∀ p ∈ paletteTable, runesOf p.1 ≠ runesOf "bold\x00")
      ∧ Registry.get NewStyler (keyOf (runesOf "bold\x00")) = some (runesOf "1")
      ∧ Apply NewStyler (runesOf "[~bold\x00]x[/]") = .ok (runesOf "\x1b[0m\x1b[1mx\x1b[0m")
      ∧ ¬ (∀ name body : List Int, Registry.get NewStyler (keyOf name) = some body →
            ∃ p ∈ paletteTable, name = runesOf p.1) := by
  refine ⟨by decide, by decide, by decide, ?_⟩
  intro hall
  obtain ⟨p, hp, hname⟩ := hall (runesOf "bold\x00") (runesOf "1") (by decide)
  have hne : ∀ p ∈ paletteTable, runesOf p.1 ≠ runesOf "bold\x00" := by decide
  exact hne p hp hname.symm

/-! ## Registration of names with multi-byte characters -/

/-- C11. `Register` stores each rune of the name at the byte offset where it
starts, while `parseOpening` builds its key rune by rune. For the name `éa`
(2 runes, 3 bytes) the stored key is `é, 0, a, 0, ...`; the key of the segment
`éa` is `é, a, 0, ...`, so the lookup finds nothing and the tag `[~éa]` is
copied as text. A name of ASCII characters (`error`, from the doc comment) is
found. -/
theorem Register_multibyte_name_not_found :
    Register [] (goString "éa") (goString "1")
        = [([233, 0, 97, 0, 0, 0, 0, 0, 0, 0, 0, 0, 0, 0, 0, 0], runesOf "1")]
      ∧ keyOf (runesOf "éa") = [233, 97, 0, 0, 0, 0, 0, 0, 0, 0, 0, 0, 0, 0, 0, 0]
      ∧ Registry.get (Register NewStyler (goString "éa") (goString "1"))
          (keyOf (runesOf "éa")) = none
      ∧ Apply (Register NewStyler (goString "éa") (goString "1"))
          (runesOf "[~éa]x[/]") = .ok (runesOf "\x1b[0m[~éa]x[/]")
      ∧ Apply (Register NewStyler (goString "error") (goString "1;31"))
          (runesOf "[~error]Something unexpected happened")
        = .ok (runesOf "\x1b[0m\x1b[1;31mSomething unexpected happened\x1b[0m") := by
  decide

/-! ## The package-level function -/

theorem sprintfString_verb (p q arg : List Nat) (hp : ∀ c ∈ p, c ≠ 37) :
    sprintfString (p ++ ([37, 115] ++ q)) arg = p ++ (arg ++ q) := by
  induction p with
  | nil => simp [sprintfString]
  | cons c p ih =>
    have hc : c ≠ 37 := hp c (List.mem_cons_self _ _)
    have hrec := ih (fun x hx => hp x (List.mem_cons_of_mem _ hx))
    have hstep : sprintfString (c :: (p ++ ([37, 115] ++ q))) arg
        = c :: sprintfString (p ++ ([37, 115] ++ q)) arg := by
      simp [sprintfString, hc]
    rw [List.cons_append, hstep, hrec, List.cons_append]

/-- C16. The package-level `Apply(format, args...)` renders the tags of the
format string only. With `fmt.Sprintf` as the parameter `sprintf`: the result
is `sprintf` applied to `string(NewStyler().Apply([]rune(format)))` and the
arguments, and a panic of the styler is a panic of the function, so the
arguments reach `sprintf` as they are and are never scanned. Whenever
`sprintf` replaces the single verb of a format `p%sq` by the text `text` for
the argument pack `args`, a format of one scope around `%s`, `[~bold]%s[/]`,
gives `ESC[0m ESC[1m`, then `text` unchanged, then `ESC[0m`, whatever tags
`text` contains. -/
theorem PackageApply_renders_format_only {α : Type} (sprintf : List Nat → α → List Nat)
    (args : α) (text : List Nat)
    (hverb : ∀ p q : List Nat, (∀ c ∈ p, c ≠ 37) → (∀ c ∈ q, c ≠ 37) →
      sprintf (p ++ ([37, 115] ++ q)) args = p ++ (text ++ q)) :
    (∀ format : List Nat,
        PackageApply sprintf format args
          = match Apply NewStyler (toRunes format) with
            | .panic => .panic
            | .outOfFuel => .outOfFuel
            | .ok output => .ok (sprintf (toGoString output) args))
      ∧ PackageApply sprintf (goString "[~bold]%s[/]") args
          = .ok (goString "\x1b[0m\x1b[1m" ++ (text ++ goString "\x1b[0m")) := by
  refine ⟨fun format => rfl, ?_⟩
  have hrender : Apply NewStyler (toRunes (goString "[~bold]%s[/]"))
      = .ok (runesOf "\x1b[0m\x1b[1m%s\x1b[0m") := by decide
  have hstring : toGoString (runesOf "\x1b[0m\x1b[1m%s\x1b[0m")
      = goString "\x1b[0m\x1b[1m" ++ ([37, 115] ++ goString "\x1b[0m") := by decide
  simp only [PackageApply, hrender, hstring]
  rw [hverb _ _ (by decide) (by decide)]

/-- C16 on the argument of the test `TestApply`, `testing [~faint]string[/]`
written with the marker of the code: the argument appears unchanged between
the sequences of the scope. -/
theorem PackageApply_renders_format_only_witness :
    (∀ format : List Nat,
        PackageApply sprintfString format (goString "testing [~faint]string[/]")
          = match Apply NewStyler (toRunes format) with
            | .panic => .panic
            | .outOfFuel => .outOfFuel
            | .ok output =>
              .ok (sprintfString (toGoString output) (goString "testing [~faint]string[/]")))
      ∧ PackageApply sprintfString (goString "[~bold]%s[/]")
          (goString "testing [~faint]string[/]")
          = .ok (goString "\x1b[0m\x1b[1m"
              ++ (goString "testing [~faint]string[/]" ++ goString "\x1b[0m")) :=
  PackageApply_renders_format_only sprintfString (goString "testing [~faint]string[/]")
    (goString "testing [~faint]string[/]")
    (fun p q hp _ => sprintfString_verb p q (goString "testing [~faint]string[/]") hp)

/-! ## What parseOpening can return -/

theorem checkSequence_cases (sequence runes : List Int) (idx : Int) (hidx : 0 ≤ idx) :
    checkSequence sequence runes idx = .ok (idx, false)
      ∨ (checkSequence sequence runes idx = .ok (idx + (sequence.length : Int) - 1, true)
          ∧ idx + (sequence.length : Int) ≤ (runes.length : Int)) := by
  obtain ⟨n, rfl⟩ := Int.eq_ofNat_of_zero_le hidx
  rw [checkSequence_eq]
  by_cases hc : n + sequence.length ≤ runes.length
      ∧ (runes.drop n).take sequence.length = sequence
  · right
    simp only [hc, and_self, if_true, true_and]
    omega
  · left
    simp [hc]

theorem parseOpeningLoop_result (named : Registry) (runes : List Int) (idx after : Int) :
    ∀ (fuel : Nat) (i count : Int) (sequence : List Int) (first numeric : Bool)
      (key : List Int) (r : Option (List Int) × Int × Bool),
      0 ≤ i →
      parseOpeningLoop named runes idx after fuel i count sequence first numeric key = .ok r →
      r = (none, idx, false)
        ∨ ∃ s i1, r = (some s, i1, true) ∧ (i1 = after ∨ (i ≤ i1 ∧ i1 < (runes.length : Int))) := by
  intro fuel
  induction fuel with
  | zero =>
    intro i count sequence first numeric key r _ h
    simp [parseOpeningLoop] at h
  | succ fuel ih =>
    intro i count sequence first numeric key r hi h
    unfold parseOpeningLoop at h
    split at h
    · rename_i hlt
      split at h
      · exact absurd h (by simp)
      · rename_i c hread
        simp only at h
        split at h
        · split at h
          · left
            simp only [Outcome.ok.injEq] at h
            exact h.symm
          · split at h
            · exact absurd h (by simp)
            · exact absurd h (by simp)
            · left
              simp only [Outcome.ok.injEq] at h
              exact h.symm
            · split at h
              · rcases checkSequence_cases openingClose runes i hi with hcs | ⟨hcs, hle⟩
                · rw [hcs] at h
                  left
                  simp only [Outcome.ok.injEq] at h
                  exact h.symm
                · rw [hcs] at h
                  right
                  simp only [Outcome.ok.injEq] at h
                  refine ⟨_, _, h.symm, Or.inr ⟨?_, ?_⟩⟩
                  · simp [openingClose]
                  · simp [openingClose]
                    omega
              · rcases ih _ _ _ _ _ _ r (by omega) h with h1 | ⟨s, i1, h1, h2⟩
                · exact Or.inl h1
                · refine Or.inr ⟨s, i1, h1, ?_⟩
                  rcases h2 with h2 | h2
                  · exact Or.inl h2
                  · exact Or.inr ⟨by omega, h2.2⟩
        · split at h
          · exact absurd h (by simp)
          · rcases ih _ _ _ _ _ _ r (by omega) h with h1 | ⟨s, i1, h1, h2⟩
            · exact Or.inl h1
            · refine Or.inr ⟨s, i1, h1, ?_⟩
              rcases h2 with h2 | h2
              · exact Or.inl h2
              · exact Or.inr ⟨by omega, h2.2⟩
    · right
      simp only [Outcome.ok.injEq] at h
      exact ⟨_, _, h.symm, Or.inl rfl⟩

theorem parseOpening_result (named : Registry) (runes : List Int) (idx : Int) (hidx : 0 ≤ idx)
    (r : Option (List Int) × Int × Bool) (h : parseOpening named runes idx = .ok r) :
    r = (none, idx, false)
      ∨ ∃ s i1, r = (some s, i1, true) ∧ idx < i1 ∧ i1 < (runes.length : Int) := by
  unfold parseOpening at h
  rcases checkSequence_cases openingBegin runes idx hidx with hcs | ⟨hcs, hle⟩
  · rw [hcs] at h
    simp only [Outcome.ok.injEq] at h
    exact Or.inl h.symm
  · rw [hcs] at h
    simp only at h
    have hlen : (openingBegin.length : Int) = 2 := by simp [openingBegin]
    rw [hlen] at h hle
    rcases parseOpeningLoop_result named runes idx _ _ _ _ _ _ _ _ r (by omega) h with
      h1 | ⟨s, i1, h1, h2⟩
    · exact Or.inl h1
    · refine Or.inr ⟨s, i1, h1, ?_⟩
      rcases h2 with h2 | h2
      · omega
      · omega

/-! ## The step budget is never used up -/

theorem checkSequence_ne_outOfFuel (sequence runes : List Int) (idx : Int) :
    checkSequence sequence runes idx ≠ .outOfFuel := by
  unfold checkSequence
  simp only
  split
  · simp
  · split <;> simp

theorem parseOpeningLoop_ne_outOfFuel (named : Registry) (runes : List Int) (idx after : Int) :
    ∀ (fuel : Nat) (i count : Int) (sequence : List Int) (first numeric : Bool)
      (key : List Int),
      0 < fuel → (runes.length : Int) - i < (fuel : Int) →
      parseOpeningLoop named runes idx after fuel i count sequence first numeric key
        ≠ .outOfFuel := by
  intro fuel
  induction fuel with
  | zero => intro i count sequence first numeric key h; exact absurd h (by simp)
  | succ fuel ih =>
    intro i count sequence first numeric key _ hfuel h
    unfold parseOpeningLoop at h
    split at h
    · rename_i hlt
      have hpos : 0 < fuel := by omega
      have hnext : (runes.length : Int) - (i + 1) < (fuel : Int) := by push_cast at hfuel; omega
      split at h
      · exact absurd h (by simp)
      · simp only at h
        split at h
        · split at h
          · exact absurd h (by simp)
          · split at h
            · exact absurd h (by simp)
            · rename_i hres
              split at hres
              · exact absurd hres (by simp)
              · split at hres
                · split at hres <;> exact absurd hres (by simp)
                · exact absurd hres (by simp)
            · exact absurd h (by simp)
            · split at h
              · split at h
                · exact absurd h (by simp)
                · rename_i hcs
                  exact checkSequence_ne_outOfFuel _ _ _ hcs
                · exact absurd h (by simp)
                · exact absurd h (by simp)
              · exact ih _ _ _ _ _ _ hpos hnext h
        · split at h
          · exact absurd h (by simp)
          · exact ih _ _ _ _ _ _ hpos hnext h
    · exact absurd h (by simp)

theorem parseOpening_ne_outOfFuel (named : Registry) (runes : List Int) (idx : Int)
    (hidx : 0 ≤ idx) : parseOpening named runes idx ≠ .outOfFuel := by
  intro h
  unfold parseOpening at h
  rcases checkSequence_cases openingBegin runes idx hidx with hcs | ⟨hcs, hle⟩
  · rw [hcs] at h
    exact absurd h (by simp)
  · rw [hcs] at h
    simp only at h
    have hlen : (openingBegin.length : Int) = 2 := by simp [openingBegin]
    rw [hlen] at h
    exact parseOpeningLoop_ne_outOfFuel named runes idx _ _ _ _ _ _ _ _ (by omega)
      (by push_cast; omega) h

/-! ## The nesting-stack invariant -/

theorem slotSet_some (stack : List (Option (List Int))) (j : Int) (v : Option (List Int))
    (h0 : 0 ≤ j) (h1 : j < (stack.length : Int)) :
    slotSet stack j v = some (stack.set j.toNat v) := by
  simp [slotSet, h0, h1]

theorem slotGet_some (stack : List (Option (List Int))) (j : Int)
    (h0 : 0 ≤ j) (h1 : j < (stack.length : Int)) :
    ∃ x, slotGet stack j = some x := by
  have hlt : j.toNat < stack.length := by omega
  have hneg : ¬ j < 0 := by omega
  exact ⟨stack[j.toNat], by simp [slotGet, hneg, List.getElem?_eq_getElem hlt]⟩

theorem StackInvariant_output (i i1 nest : Int) (stack : List (Option (List Int)))
    (out out1 : List Int)
    (h : StackInvariant { i := i, nest := nest, appliedStyleStack := stack, output := out }) :
    StackInvariant { i := i1, nest := nest, appliedStyleStack := stack, output := out1 } := h

theorem StackInvariant_clear (i i1 nest : Int) (stack : List (Option (List Int)))
    (out out1 : List Int) (m : Nat) (hm : m < styleDepthMax)
    (h : StackInvariant { i := i, nest := nest, appliedStyleStack := stack, output := out }) :
    StackInvariant
      { i := i1, nest := nest, appliedStyleStack := stack.set m none, output := out1 } := by
  obtain ⟨h0, h5, hlen, hslots⟩ := h
  simp only at h0 h5 hlen hslots
  refine ⟨h0, h5, by simp [hlen], ?_⟩
  intro j hj hj5
  simp only
  by_cases hjm : m = j
  · subst hjm
    exact List.getElem?_set_self (by omega)
  · rw [List.getElem?_set_ne hjm]
    exact hslots j hj hj5

theorem StackInvariant_pop (i i1 nest : Int) (stack : List (Option (List Int)))
    (out out1 : List Int) (hpos : nest > 0)
    (h : StackInvariant { i := i, nest := nest, appliedStyleStack := stack, output := out }) :
    StackInvariant
      { i := i1, nest := nest - 1, appliedStyleStack := stack.set (nest - 1).toNat none,
        output := out1 } := by
  obtain ⟨h0, h5, hlen, hslots⟩ := h
  simp only at h0 h5 hlen hslots
  refine ⟨by simp only; omega, by simp only; omega, by simp [hlen], ?_⟩
  intro j hj hj5
  simp only at hj ⊢
  by_cases hjm : (nest - 1).toNat = j
  · rw [← hjm]
    exact List.getElem?_set_self (by omega)
  · rw [List.getElem?_set_ne hjm]
    exact hslots j (by omega) hj5

theorem StackInvariant_push (i i1 nest : Int) (stack : List (Option (List Int)))
    (out out1 : List Int) (v : Option (List Int)) (hlt : nest < (styleDepthMax : Int))
    (h : StackInvariant { i := i, nest := nest, appliedStyleStack := stack, output := out }) :
    StackInvariant
      { i := i1, nest := nest + 1, appliedStyleStack := stack.set nest.toNat v,
        output := out1 } := by
  obtain ⟨h0, h5, hlen, hslots⟩ := h
  simp only at h0 h5 hlen hslots
  refine ⟨by simp only; omega, by simp only; omega, by simp [hlen], ?_⟩
  intro j hj hj5
  simp only at hj ⊢
  have hjm : nest.toNat ≠ j := by omega
  rw [List.getElem?_set_ne hjm]
  exact hslots j (by omega) hj5

/-- The closing part of an iteration, from a state that satisfies the
invariant: it returns, the invariant holds afterwards and the cursor has not
moved backwards. -/
theorem applyClosing_cases (runes : List Int) (r : Int) (st : ApplyState)
    (hinv : StackInvariant st) (hi : 0 ≤ st.i) :
    ∃ st1, applyClosing runes r st = .ok st1 ∧ StackInvariant st1 ∧ st.i ≤ st1.i := by
  obtain ⟨i, nest, stack, out⟩ := st
  simp only at hi
  have hinv2 := hinv
  obtain ⟨h0, h5, hlen, hslots⟩ := hinv2
  simp only at h0 h5 hlen hslots
  by_cases hcond : r = 91 ∧ nest > 0
  · rcases checkSequence_cases closing runes i hi with hcs | ⟨hcs, hle⟩
    · refine ⟨{ i := i, nest := nest, appliedStyleStack := stack, output := out ++ [r] }, ?_,
        StackInvariant_output i i nest stack out _ hinv, by simp⟩
      simp [applyClosing, hcond, hcs]
    · have hlen3 : (closing.length : Int) = 3 := by simp [closing]
      rw [hlen3] at hcs hle
      have hnn : nest - 1 ≥ 0 := by omega
      have hset := slotSet_some stack (nest - 1) none (by omega) (by rw [hlen]; omega)
      by_cases hend : i + 3 - 1 + 1 = (runes.length : Int)
      · have hset0 : slotSet (stack.set (nest - 1).toNat none) 0 none
            = some ((stack.set (nest - 1).toNat none).set 0 none) :=
          slotSet_some (stack.set (nest - 1).toNat none) 0 none (by omega)
            (by simp [hlen, styleDepthMax])
        refine ⟨{ i := i + 3 - 1, nest := nest - 1,
                  appliedStyleStack := (stack.set (nest - 1).toNat none).set 0 none,
                  output := restoreLoop (nest - 1)
                    ((stack.set (nest - 1).toNat none).set 0 none) 0 (out ++ reset) }, ?_,
          ?_, by simp only; omega⟩
        · simp only [applyClosing, hcond, and_self, if_true, hcs, hnn, hset, hend, hset0]
        · exact StackInvariant_clear i _ _ _ out _ 0 (by simp [styleDepthMax])
            (StackInvariant_pop i i nest stack out out hcond.2 hinv)
      · refine ⟨{ i := i + 3 - 1, nest := nest - 1,
                  appliedStyleStack := stack.set (nest - 1).toNat none,
                  output := restoreLoop (nest - 1) (stack.set (nest - 1).toNat none) 0
                    (out ++ reset) }, ?_,
          StackInvariant_pop i _ nest stack out _ hcond.2 hinv, by simp only; omega⟩
        simp only [applyClosing, hcond, and_self, if_true, hcs, hnn, hset, hend, if_false]
  · refine ⟨{ i := i, nest := nest, appliedStyleStack := stack, output := out ++ [r] }, ?_,
      StackInvariant_output i i nest stack out _ hinv, by simp⟩
    simp [applyClosing, hcond]

/-- One iteration from a state that satisfies the invariant, with the cursor
inside the input: either `parseOpening` panics, and so does the iteration, or
the iteration returns, the invariant holds afterwards and the cursor has not
moved backwards. No access to `appliedStyleStack` is out of range. -/
theorem applyStep_cases (named : Registry) (runes : List Int) (st : ApplyState)
    (hinv : StackInvariant st) (hi : 0 ≤ st.i) (hlt : st.i < (runes.length : Int)) :
    (applyStep named runes st = .panic ∧ parseOpening named runes st.i = .panic)
      ∨ ∃ st1, applyStep named runes st = .ok st1 ∧ StackInvariant st1 ∧ st.i ≤ st1.i := by
  obtain ⟨i, nest, stack, out⟩ := st
  simp only at hi hlt
  have hinv2 := hinv
  obtain ⟨h0, h5, hlen, hslots⟩ := hinv2
  simp only at h0 h5 hlen hslots
  have hbound : i.toNat < runes.length := by omega
  have hread : runeAt runes i = some runes[i.toNat] := by
    have hneg : ¬ i < 0 := by omega
    simp [runeAt, hneg, List.getElem?_eq_getElem hbound]
  generalize runes[i.toNat] = r at hread
  by_cases hcond : r = 91 ∧ nest < (styleDepthMax : Int)
  · obtain ⟨hr91, hn5⟩ := hcond
    subst hr91
    cases hparse : parseOpening named runes i with
    | panic =>
      left
      simp [applyStep, hread, hn5, hparse]
    | outOfFuel => exact absurd hparse (parseOpening_ne_outOfFuel named runes i hi)
    | ok res =>
      right
      rcases parseOpening_result named runes i hi res hparse with hres | ⟨s, i1, hres, hgt, _⟩
      · subst hres
        have hset := slotSet_some stack nest none h0 (by rw [hlen]; omega)
        obtain ⟨st1, hst1, hinv1, hcur⟩ := applyClosing_cases runes 91
          { i := i, nest := nest, appliedStyleStack := stack.set nest.toNat none, output := out }
          (StackInvariant_clear i i nest stack out out nest.toNat (by omega) hinv) hi
        refine ⟨st1, ?_, hinv1, hcur⟩
        simp only [applyStep, hread, hn5, and_self, if_true, hparse, hset, Bool.false_eq_true,
          if_false]
        exact hst1
      · subst hres
        have hset := slotSet_some stack nest (some s) h0 (by rw [hlen]; omega)
        have hpos : nest + 1 > 0 := by omega
        obtain ⟨x, hget⟩ := slotGet_some (stack.set nest.toNat (some s)) (nest + 1 - 1)
          (by omega) (by simp [hlen]; omega)
        refine ⟨{ i := i1, nest := nest + 1, appliedStyleStack := stack.set nest.toNat (some s),
                  output := out ++ sliceRunes x }, ?_,
          StackInvariant_push i i1 nest stack out _ (some s) hn5 hinv, by simp only; omega⟩
        simp only [applyStep, hread, hn5, and_self, if_true, hparse, hset, hpos, hget]
  · right
    obtain ⟨st1, hst1, hinv1, hcur⟩ := applyClosing_cases runes r
      { i := i, nest := nest, appliedStyleStack := stack, output := out } hinv hi
    refine ⟨st1, ?_, hinv1, hcur⟩
    simp only [applyStep, hread, hcond, if_false]
    exact hst1

theorem StackInvariant_applyInit : StackInvariant applyInit := by
  refine ⟨by simp [applyInit], by simp [applyInit], by simp [applyInit], ?_⟩
  intro j _ hj5
  simp only [applyInit]
  rw [List.getElem?_replicate]
  simp [hj5]

/-- Every state at the head of the scan loop satisfies the invariant and has
a cursor that is not negative. -/
theorem reachable_invariant (named : Registry) (runes : List Int) (st : ApplyState)
    (h : Reachable named runes st) : StackInvariant st ∧ 0 ≤ st.i := by
  induction h with
  | init => exact ⟨StackInvariant_applyInit, by simp [applyInit]⟩
  | step st st1 _ hlt hstep ih =>
    rcases applyStep_cases named runes st ih.1 ih.2 hlt with ⟨hpanic, _⟩ | ⟨st2, hok, hinv, hcur⟩
    · rw [hpanic] at hstep
      exact absurd hstep (by simp)
    · rw [hok] at hstep
      simp only [Outcome.ok.injEq] at hstep
      subst hstep
      exact ⟨StackInvariant_output st2.i (st2.i + 1) st2.nest st2.appliedStyleStack st2.output
        st2.output hinv, by simp only; omega⟩

/-- C17. Nesting-stack invariant. In every state at the head of the scan loop
of `Apply`, for any input and registry, the depth is between 0 and 5, the
stack has 5 slots and every slot from the depth on is `nil`. Consequently the
accesses of an iteration are inside the array: while the depth is below 5 the
write of slot `depth` by the opening branch and the read of slot `depth - 1`
after the increment succeed; while the depth is above 0 the write of slot
`depth - 1` by the closing branch and the write of slot 0 succeed; and an
iteration at a cursor inside the input panics only when `parseOpening` does. -/
theorem reachable_stack_invariant (named : Registry) (runes : List Int) (st : ApplyState)
    (h : Reachable named runes st) :
    StackInvariant st
      ∧ (st.nest < (styleDepthMax : Int) → ∀ v : Option (List Int),
          ∃ stack1, slotSet st.appliedStyleStack st.nest v = some stack1
            ∧ ∃ x, slotGet stack1 (st.nest + 1 - 1) = some x)
      ∧ (st.nest > 0 →
          ∃ stack1, slotSet st.appliedStyleStack (st.nest - 1) none = some stack1
            ∧ ∃ stack2, slotSet stack1 0 none = some stack2)
      ∧ (st.i < (runes.length : Int) → applyStep named runes st = .panic →
          parseOpening named runes st.i = .panic) := by
  obtain ⟨hinv, hi⟩ := reachable_invariant named runes st h
  have hinv2 := hinv
  obtain ⟨h0, h5, hlen, _⟩ := hinv2
  refine ⟨hinv, ?_, ?_, ?_⟩
  · intro hlt v
    refine ⟨_, slotSet_some st.appliedStyleStack st.nest v h0 (by rw [hlen]; omega), ?_⟩
    exact slotGet_some _ _ (by omega) (by simp [hlen]; omega)
  · intro hpos
    refine ⟨_, slotSet_some st.appliedStyleStack (st.nest - 1) none (by omega)
      (by rw [hlen]; omega), ?_⟩
    exact ⟨_, slotSet_some _ 0 none (by omega) (by simp [hlen, styleDepthMax])⟩
  · intro hlt hpanic
    rcases applyStep_cases named runes st hinv hi hlt with ⟨_, hparse⟩ | ⟨st1, hok, _, _⟩
    · exact hparse
    · rw [hok] at hpanic
      exact absurd hpanic (by simp)

/-- C17 with the built-in styles on `[~bold]x`: the state after the first
iteration (the tag is parsed, the depth is 1) is reachable and satisfies the
invariant. -/
theorem reachable_stack_invariant_witness :
    Reachable NewStyler (runesOf "[~bold]x")
        { i := 6 + 1, nest := 1,
          appliedStyleStack := [some (runesOf "\x1b[1m"), none, none, none, none],
          output := runesOf "\x1b[0m\x1b[1m" }
      ∧ StackInvariant
        { i := 6 + 1, nest := 1,
          appliedStyleStack := [some (runesOf "\x1b[1m"), none, none, none, none],
          output := runesOf "\x1b[0m\x1b[1m" } :=
  ⟨Reachable.step applyInit
      { i := 6, nest := 1,
        appliedStyleStack := [some (runesOf "\x1b[1m"), none, none, none, none],
        output := runesOf "\x1b[0m\x1b[1m" }
      Reachable.init (by decide) (by decide),
   (reachable_stack_invariant NewStyler (runesOf "[~bold]x") _
      (Reachable.step applyInit
        { i := 6, nest := 1,
          appliedStyleStack := [some (runesOf "\x1b[1m"), none, none, none, none],
          output := runesOf "\x1b[0m\x1b[1m" }
        Reachable.init (by decide) (by decide))).1⟩

/-! ## Single pass and termination -/

theorem applyLoop_ne_outOfFuel (named : Registry) (runes : List Int) :
    ∀ (fuel : Nat) (st : ApplyState), StackInvariant st → 0 ≤ st.i → 0 < fuel →
      (runes.length : Int) - st.i < (fuel : Int) →
      applyLoop named runes fuel st ≠ .outOfFuel := by
  intro fuel
  induction fuel with
  | zero => intro st _ _ h; exact absurd h (by simp)
  | succ fuel ih =>
    intro st hinv hi _ hfuel h
    unfold applyLoop at h
    by_cases hlt : st.i < (runes.length : Int)
    · simp only [hlt, if_true] at h
      rcases applyStep_cases named runes st hinv hi hlt with ⟨hpanic, _⟩ | ⟨st1, hok, hinv1, hcur⟩
      · rw [hpanic] at h
        exact absurd h (by simp)
      · rw [hok] at h
        simp only at h
        exact ih { st1 with i := st1.i + 1 }
          (StackInvariant_output st1.i (st1.i + 1) st1.nest st1.appliedStyleStack st1.output
            st1.output hinv1)
          (by simp only; omega) (by omega) (by push_cast at hfuel; simp only; omega) h
    · simp only [hlt, if_false] at h
      exact absurd h (by simp)

/-- C18. Single pass and termination. For every registry and input:
`parseOpening` at an index `idx ≥ 0` returns either failure with the index
`idx`, or success with an index greater than `idx` and less than the length
of the input; `checkSequence` at `idx ≥ 0` returns either `(idx, false)` or
the index of the last rune of the sequence, `(idx + len(sequence) - 1, true)`;
an iteration of the scan loop that returns leaves the cursor at or after its
position at the start, so after the loop's increment it is strictly larger;
and the scan loop ends within its budget of `len(runes) + 1` loop tests, that
is after at most `len(runes)` iterations: the scan either returns or
panics. -/
theorem scan_never_moves_backwards (named : Registry) (runes : List Int) :
    (∀ (idx : Int) (r : Option (List Int) × Int × Bool), 0 ≤ idx →
        parseOpening named runes idx = .ok r →
        (r.2.2 = false ∧ r.2.1 = idx)
          ∨ (r.2.2 = true ∧ idx < r.2.1 ∧ r.2.1 < (runes.length : Int)))
      ∧ (∀ (sequence : List Int) (idx : Int) (r : Int × Bool), 0 ≤ idx →
          checkSequence sequence runes idx = .ok r →
          r = (idx, false) ∨ r = (idx + (sequence.length : Int) - 1, true))
      ∧ (∀ st st1 : ApplyState, Reachable named runes st → st.i < (runes.length : Int) →
          applyStep named runes st = .ok st1 → st.i < st1.i + 1)
      ∧ applyScan named runes ≠ .outOfFuel
      ∧ ((∃ st, applyScan named runes = .ok st) ∨ applyScan named runes = .panic) := by
  have hfuel : applyScan named runes ≠ .outOfFuel :=
    applyLoop_ne_outOfFuel named runes (runes.length + 1) applyInit StackInvariant_applyInit
      (by simp [applyInit]) (by omega) (by simp [applyInit])
  refine ⟨?_, ?_, ?_, hfuel, ?_⟩
  · intro idx r hidx h
    rcases parseOpening_result named runes idx hidx r h with h1 | ⟨s, i1, h1, h2, h3⟩
    · left; subst h1; exact ⟨rfl, rfl⟩
    · right; subst h1; exact ⟨rfl, h2, h3⟩
  · intro sequence idx r hidx h
    rcases checkSequence_cases sequence runes idx hidx with hcs | ⟨hcs, _⟩
    · rw [hcs] at h
      simp only [Outcome.ok.injEq] at h
      exact Or.inl h.symm
    · rw [hcs] at h
      simp only [Outcome.ok.injEq] at h
      exact Or.inr h.symm
  · intro st st1 hreach hlt hstep
    obtain ⟨hinv, hi⟩ := reachable_invariant named runes st hreach
    rcases applyStep_cases named runes st hinv hi hlt with ⟨hpanic, _⟩ | ⟨st2, hok, _, hcur⟩
    · rw [hpanic] at hstep
      exact absurd hstep (by simp)
    · rw [hok] at hstep
      simp only [Outcome.ok.injEq] at hstep
      subst hstep
      omega
  · cases hscan : applyScan named runes with
    | ok st => exact Or.inl ⟨st, rfl⟩
    | panic => exact Or.inr rfl
    | outOfFuel => exact absurd hscan hfuel

end Instyle
